import Mathlib

/-!
Verification of the HTTP execution-and-caching core and the streaming agent
orchestrator of the `api-tester` repository.

The TypeScript sources under `src/lib/httpRequest.ts`, `src/lib/kv.ts` and
`src/app/api/agent/route.ts` are shallowly embedded below.  JavaScript strings
are modelled as Lean `String`/`List Char`; `JSON.parse`/`JSON.stringify` are
modelled by an executable printer and a fuel-based recursive-descent parser
over a `Json` value type (numbers restricted to integers: the repository only
ever serializes integral numbers, namely HTTP status codes and millisecond
timings); stateful code is modelled by explicit state passing, and fallible
code returns `Except`/`Option`.
-/

set_option maxHeartbeats 1000000
set_option linter.unusedVariables false

namespace ApiTester

/-! ### Character helpers (ASCII model of JS case conversion) -/

/-- Code point of a character. -/
def cp (c : Char) : Nat := c.toNat

/-- Model of JS `toLowerCase` on one character (ASCII fragment; the header
names and methods handled by the program are ASCII). -/
def lowerChar (c : Char) : Char :=
  if 65 ≤ cp c ∧ cp c ≤ 90 then Char.ofNat (cp c + 32) else c

/-- Model of JS `toUpperCase` on one character (ASCII fragment). -/
def upperChar (c : Char) : Char :=
  if 97 ≤ cp c ∧ cp c ≤ 122 then Char.ofNat (cp c - 32) else c

/-- Model of JS `toLowerCase` on a string. -/
def lowerStr (s : String) : String := String.mk (s.data.map lowerChar)

/-- Model of JS `toUpperCase` on a string. -/
def upperStr (s : String) : String := String.mk (s.data.map upperChar)

/-- Hexadecimal digit characters (lower case, as produced by Node's
`digest('hex')` and by `JSON.stringify` unicode escapes). -/
def hexDig : Nat → Char
  | 0 => '0' | 1 => '1' | 2 => '2' | 3 => '3' | 4 => '4'
  | 5 => '5' | 6 => '6' | 7 => '7' | 8 => '8' | 9 => '9'
  | 10 => 'a' | 11 => 'b' | 12 => 'c' | 13 => 'd' | 14 => 'e'
  | _ => 'f'

/-- Value of a hexadecimal digit character, as accepted by `JSON.parse`
unicode escapes. -/
def hexVal (c : Char) : Option Nat :=
  if 48 ≤ cp c ∧ cp c ≤ 57 then some (cp c - 48)
  else if 97 ≤ cp c ∧ cp c ≤ 102 then some (cp c - 87)
  else if 65 ≤ cp c ∧ cp c ≤ 70 then some (cp c - 55)
  else none

/-- Decimal digit test (`0` to `9`). -/
def isDig (c : Char) : Bool := 48 ≤ cp c && cp c ≤ 57

/-! ### JSON values, `JSON.stringify` and `JSON.parse` -/

/-- JSON values.  `jstr` is also used for raw response text bodies. -/
inductive Json where
  | jnull : Json
  | jbool : Bool → Json
  | jnum : Int → Json
  | jstr : String → Json
  | jarr : List Json → Json
  | jobj : List (String × Json) → Json

/-- Model of `JSON.stringify` escaping of a single character inside a string literal. -/
def escChar (c : Char) : List Char :=
  if c = '"' then ['\\', '"']
  else if c = '\\' then ['\\', '\\']
  else if c = '\x08' then ['\\', 'b']
  else if c = '\x0c' then ['\\', 'f']
  else if c = '\n' then ['\\', 'n']
  else if c = '\r' then ['\\', 'r']
  else if c = '\t' then ['\\', 't']
  else if cp c < 32 then ['\\', 'u', '0', '0', hexDig (cp c / 16), hexDig (cp c % 16)]
  else [c]

/-- Escape every character of a string body. -/
def escL : List Char → List Char
  | [] => []
  | c :: cs => escChar c ++ escL cs

/-- Decimal digits of a natural number, most significant first
(the rendering used by `JSON.stringify` for non-negative integers). -/
def natDigits (n : Nat) : List Char :=
  if h : n < 10 then [hexDig n]
  else natDigits (n / 10) ++ [hexDig (n % 10)]
termination_by n
decreasing_by exact Nat.div_lt_self (by omega) (by omega)

/-- Decimal rendering of an integer. -/
def intDigits (i : Int) : List Char :=
  if i < 0 then '-' :: natDigits i.natAbs else natDigits i.natAbs

mutual
/-- Model of `JSON.stringify` (no spacing), producing a character list. -/
def render : Json → List Char
  | .jnull => ['n', 'u', 'l', 'l']
  | .jbool true => ['t', 'r', 'u', 'e']
  | .jbool false => ['f', 'a', 'l', 's', 'e']
  | .jnum i => intDigits i
  | .jstr s => '"' :: (escL s.data ++ ['"'])
  | .jarr xs => '[' :: (renderItems xs ++ [']'])
  | .jobj fs => '{' :: (renderFields fs ++ ['}'])

/-- Comma-separated rendering of array elements. -/
def renderItems : List Json → List Char
  | [] => []
  | [x] => render x
  | x :: y :: xs => render x ++ ',' :: renderItems (y :: xs)

/-- Comma-separated rendering of object fields. -/
def renderFields : List (String × Json) → List Char
  | [] => []
  | [f] => '"' :: (escL f.1.data ++ '"' :: ':' :: render f.2)
  | f :: g :: fs =>
    ('"' :: (escL f.1.data ++ '"' :: ':' :: render f.2)) ++ ',' :: renderFields (g :: fs)
end

/-- Model of `JSON.stringify` as a string-to-string function. -/
def stringify (j : Json) : String := String.mk (render j)

/-- JSON insignificant whitespace (the four characters accepted by
`JSON.parse` between tokens). -/
def isJsonWs (c : Char) : Bool := c = ' ' || c = '\t' || c = '\n' || c = '\r'

/-- Skip insignificant whitespace. -/
def skipWs : List Char → List Char
  | c :: cs => if isJsonWs c then skipWs cs else c :: cs
  | [] => []

/-- Decode a two-character escape (after the backslash) inside a JSON string. -/
def unescChar (e : Char) : Option Char :=
  if e = '"' then some '"'
  else if e = '\\' then some '\\'
  else if e = '/' then some '/'
  else if e = 'b' then some '\x08'
  else if e = 'f' then some '\x0c'
  else if e = 'n' then some '\n'
  else if e = 'r' then some '\r'
  else if e = 't' then some '\t'
  else none

/-- Parse the body of a JSON string literal (after the opening quote), up to
and including the closing quote.  Returns the decoded characters and the rest
of the input. -/
def parseStrBody : List Char → Option (List Char × List Char)
  | [] => none
  | c :: cs =>
    if c = '"' then some ([], cs)
    else if c = '\\' then
      match cs with
      | [] => none
      | e :: cs' =>
        if e = 'u' then
          match cs' with
          | h1 :: h2 :: h3 :: h4 :: cs'' =>
            match hexVal h1, hexVal h2, hexVal h3, hexVal h4 with
            | some v1, some v2, some v3, some v4 =>
              (parseStrBody cs'').map
                (fun p => (Char.ofNat (((v1 * 16 + v2) * 16 + v3) * 16 + v4) :: p.1, p.2))
            | _, _, _, _ => none
          | _ => none
        else
          match unescChar e with
          | some d => (parseStrBody cs').map (fun p => (d :: p.1, p.2))
          | none => none
    else (parseStrBody cs).map (fun p => (c :: p.1, p.2))

/-- Consume a maximal run of decimal digits, accumulating their value. -/
def digitsAux : Nat → List Char → Nat × List Char
  | acc, c :: cs => if isDig c then digitsAux (acc * 10 + (cp c - 48)) cs else (acc, c :: cs)
  | acc, [] => (acc, [])

/-- Prefix test on character lists (also used by the JSON parser below). -/
def startsWithL : List Char → List Char → Bool
  | _, [] => true
  | [], _ :: _ => false
  | c :: cs, p :: ps => c = p && startsWithL cs ps

mutual
/-- Parse one JSON value (fuel-based recursive descent). -/
def parseVal : Nat → List Char → Option (Json × List Char)
  | 0, _ => none
  | fuel + 1, cs =>
    match skipWs cs with
    | [] => none
    | c :: r =>
      if c = 'n' then
        if startsWithL r ['u', 'l', 'l'] then some (.jnull, r.drop 3) else none
      else if c = 't' then
        if startsWithL r ['r', 'u', 'e'] then some (.jbool true, r.drop 3) else none
      else if c = 'f' then
        if startsWithL r ['a', 'l', 's', 'e'] then some (.jbool false, r.drop 4) else none
      else if c = '"' then (parseStrBody r).map (fun p => (.jstr (String.mk p.1), p.2))
      else if c = '[' then
        match skipWs r with
        | d :: r' =>
          if d = ']' then some (.jarr [], r')
          else (parseItems fuel r).map (fun p => (.jarr p.1, p.2))
        | [] => none
      else if c = '{' then
        match skipWs r with
        | d :: r' =>
          if d = '}' then some (.jobj [], r')
          else (parseFields fuel r).map (fun p => (.jobj p.1, p.2))
        | [] => none
      else if c = '-' then
        match r with
        | c' :: r' =>
          if isDig c' then
            let p := digitsAux (cp c' - 48) r'
            some (.jnum (-(Int.ofNat p.1)), p.2)
          else none
        | [] => none
      else if isDig c then
        let p := digitsAux (cp c - 48) r
        some (.jnum (Int.ofNat p.1), p.2)
      else none

/-- Parse the elements of a non-empty JSON array (after the opening bracket),
up to and including the closing bracket. -/
def parseItems : Nat → List Char → Option (List Json × List Char)
  | 0, _ => none
  | fuel + 1, cs =>
    match parseVal fuel cs with
    | some (v, r) =>
      match skipWs r with
      | d :: r' =>
        if d = ',' then (parseItems fuel r').map (fun p => (v :: p.1, p.2))
        else if d = ']' then some ([v], r')
        else none
      | [] => none
    | none => none

/-- Parse the fields of a non-empty JSON object (after the opening brace),
up to and including the closing brace. -/
def parseFields : Nat → List Char → Option (List (String × Json) × List Char)
  | 0, _ => none
  | fuel + 1, cs =>
    match skipWs cs with
    | c :: r =>
      if c = '"' then
        match parseStrBody r with
        | some (k, r1) =>
          match skipWs r1 with
          | d :: r2 =>
            if d = ':' then
              match parseVal fuel r2 with
              | some (v, r3) =>
                match skipWs r3 with
                | e :: r4 =>
                  if e = ',' then
                    (parseFields fuel r4).map (fun p => ((String.mk k, v) :: p.1, p.2))
                  else if e = '}' then some ([(String.mk k, v)], r4)
                  else none
                | [] => none
              | none => none
            else none
          | [] => none
        | none => none
      else none
    | [] => none
end

mutual
/-- Fuel bound sufficient for `parseVal` to reparse a rendered value. -/
def jsize : Json → Nat
  | .jarr xs => sizeItems xs + 1
  | .jobj fs => sizeFields fs + 1
  | _ => 1

/-- Fuel bound for `parseItems`. -/
def sizeItems : List Json → Nat
  | [] => 0
  | x :: xs => max (jsize x) (sizeItems xs) + 1

/-- Fuel bound for `parseFields`. -/
def sizeFields : List (String × Json) → Nat
  | [] => 0
  | f :: fs => max (jsize f.2) (sizeFields fs) + 1
end

/-- Does the input begin with a decimal digit (the only continuation that
can change how a rendered number reparses)? -/
def headDigit : List Char → Bool
  | c :: _ => isDig c
  | [] => false

/-- Model of `JSON.parse`: parse a complete string as one JSON value, allowing
surrounding whitespace; `none` models a thrown `SyntaxError`. -/
def jsonParse (s : String) : Option Json :=
  match parseVal (s.data.length + 1) s.data with
  | some (j, r) => if skipWs r = [] then some j else none
  | none => none

/-! ### Substring search and trimming (JS `indexOf`, `lastIndexOf`, `trim`) -/

/-- Case-insensitive prefix test (for the `/i` regular-expression flag). -/
def startsWithCI : List Char → List Char → Bool
  | _, [] => true
  | [], _ :: _ => false
  | c :: cs, p :: ps => lowerChar c = lowerChar p && startsWithCI cs ps

/-- First index at which `pat` occurs in `l` (JS `indexOf`; `none` models -1). -/
def findSub (l pat : List Char) : Option Nat :=
  if startsWithL l pat then some 0
  else
    match l with
    | [] => none
    | _ :: cs => (findSub cs pat).map (· + 1)

/-- Last index at which `pat` occurs in `l` (JS `lastIndexOf`). -/
def findSubLast : List Char → List Char → Option Nat
  | [], pat => if startsWithL [] pat then some 0 else none
  | c :: cs, pat =>
    match findSubLast cs pat with
    | some i => some (i + 1)
    | none => if startsWithL (c :: cs) pat then some 0 else none

/-- First index at which `pat` occurs case-insensitively in `l`. -/
def findSubCI (l pat : List Char) : Option Nat :=
  if startsWithCI l pat then some 0
  else
    match l with
    | [] => none
    | _ :: cs => (findSubCI cs pat).map (· + 1)

/-- Substring containment on strings (JS `String.prototype.includes`). -/
def containsSub (s pat : String) : Bool := (findSub s.data pat.data).isSome

/-- Whitespace stripped by JS `String.prototype.trim` (ASCII part plus
no-break space; the full JS set also has exotic Unicode spaces that never
occur here). -/
def isTrimWs (c : Char) : Bool :=
  c = ' ' || c = '\t' || c = '\n' || c = '\r' || c = '\x0b' || c = '\x0c' || cp c = 160

/-- JS `String.prototype.trim` on character lists. -/
def trimL (l : List Char) : List Char :=
  ((l.dropWhile isTrimWs).reverse.dropWhile isTrimWs).reverse

/-! ### JS object semantics (string-keyed records with insertion order) -/

/-- JS object property assignment `acc[k] = v`: update in place if the key is
present, otherwise append. -/
def objUpsert (acc : List (String × String)) (k v : String) : List (String × String) :=
  if acc.any (fun p => p.1 = k) then acc.map (fun p => if p.1 = k then (k, v) else p)
  else acc ++ [(k, v)]

/-- JS object property read `o[k]`. -/
def objLookup : List (String × String) → String → Option String
  | [], _ => none
  | p :: t, k => if p.1 = k then some p.2 else objLookup t k

/-! ### SHA-256 (Node `createHash('sha256')`), over byte lists -/

/-- Truncate to a 32-bit word. -/
def w32 (n : Nat) : Nat := n % 4294967296

/-- Right rotation of a 32-bit word. -/
def rotr32 (x n : Nat) : Nat := w32 ((x >>> n) ||| (x <<< (32 - n)))

/-- Round constants. -/
def sha256K : List Nat :=
  [1116352408, 1899447441, 3049323471, 3921009573, 961987163, 1508970993, 2453635748, 2870763221,
   3624381080, 310598401, 607225278, 1426881987, 1925078388, 2162078206, 2614888103, 3248222580,
   3835390401, 4022224774, 264347078, 604807628, 770255983, 1249150122, 1555081692, 1996064986,
   2554220882, 2821834349, 2952996808, 3210313671, 3336571891, 3584528711, 113926993, 338241895,
   666307205, 773529912, 1294757372, 1396182291, 1695183700, 1986661051, 2177026350, 2456956037,
   2730485921, 2820302411, 3259730800, 3345764771, 3516065817, 3600352804, 4094571909, 275423344,
   430227734, 506948616, 659060556, 883997877, 958139571, 1322822218, 1537002063, 1747873779,
   1955562222, 2024104815, 2227730452, 2361852424, 2428436474, 2756734187, 3204031479, 3329325298]

/-- Initial hash state. -/
def sha256H0 : List Nat :=
  [1779033703, 3144134277, 1013904242, 2773480762, 1359893119, 2600822924, 528734635, 1541459225]

/-- Big-endian bytes of a value, fixed width. -/
def bytesBE : Nat → Nat → List Nat
  | 0, _ => []
  | n + 1, v => bytesBE n (v / 256) ++ [v % 256]

/-- SHA-256 message padding. -/
def sha256Pad (msg : List Nat) : List Nat :=
  msg ++ 128 :: List.replicate ((119 - msg.length % 64) % 64) 0 ++ bytesBE 8 (msg.length * 8)

/-- Split into 64-byte blocks. -/
def chunks64 : List Nat → List (List Nat)
  | [] => []
  | b :: bs => ((b :: bs).take 64) :: chunks64 ((b :: bs).drop 64)
termination_by l => l.length
decreasing_by simp [List.drop]; omega

/-- Group bytes into big-endian 32-bit words. -/
def wordsBE : List Nat → List Nat
  | a :: b :: c :: d :: rest => (((a * 256 + b) * 256 + c) * 256 + d) :: wordsBE rest
  | _ => []

/-- Message-schedule extension. -/
def extendW : Nat → List Nat → List Nat
  | 0, ws => ws
  | n + 1, ws =>
    let i := ws.length
    let w15 := ws.getD (i - 15) 0
    let w2 := ws.getD (i - 2) 0
    let s0 := (rotr32 w15 7) ^^^ (rotr32 w15 18) ^^^ (w15 >>> 3)
    let s1 := (rotr32 w2 17) ^^^ (rotr32 w2 19) ^^^ (w2 >>> 10)
    extendW n (ws ++ [w32 (ws.getD (i - 16) 0 + s0 + ws.getD (i - 7) 0 + s1)])

/-- One compression round. -/
def sha256Round (st : Nat × Nat × Nat × Nat × Nat × Nat × Nat × Nat) (kw : Nat × Nat) :
    Nat × Nat × Nat × Nat × Nat × Nat × Nat × Nat :=
  match st with
  | (a, b, c, d, e, f, g, h) =>
    let S1 := (rotr32 e 6) ^^^ (rotr32 e 11) ^^^ (rotr32 e 25)
    let ch := (e &&& f) ^^^ ((4294967295 ^^^ e) &&& g)
    let t1 := w32 (h + S1 + ch + kw.1 + kw.2)
    let S0 := (rotr32 a 2) ^^^ (rotr32 a 13) ^^^ (rotr32 a 22)
    let maj := (a &&& b) ^^^ (a &&& c) ^^^ (b &&& c)
    let t2 := w32 (S0 + maj)
    (w32 (t1 + t2), a, b, c, w32 (d + t1), e, f, g)

/-- Process one 64-byte block. -/
def sha256Chunk (hs : List Nat) (chunk : List Nat) : List Nat :=
  let ws := extendW 48 (wordsBE chunk)
  let g := fun i => hs.getD i 0
  match (sha256K.zip ws).foldl sha256Round (g 0, g 1, g 2, g 3, g 4, g 5, g 6, g 7) with
  | (a, b, c, d, e, f, gg, h) =>
    [w32 (g 0 + a), w32 (g 1 + b), w32 (g 2 + c), w32 (g 3 + d),
     w32 (g 4 + e), w32 (g 5 + f), w32 (g 6 + gg), w32 (g 7 + h)]

/-- SHA-256 digest (32 bytes) of a byte list. -/
def sha256 (msg : List Nat) : List Nat :=
  ((chunks64 (sha256Pad msg)).foldl sha256Chunk sha256H0).foldr
    (fun h acc => bytesBE 4 h ++ acc) []

/-- Lower-case hexadecimal rendering of a byte list. -/
def toHex (bs : List Nat) : List Char :=
  bs.foldr (fun b acc => hexDig (b / 16) :: hexDig (b % 16) :: acc) []

/-- UTF-8 bytes of one character. -/
def utf8Char (c : Char) : List Nat :=
  let n := cp c
  if n < 128 then [n]
  else if n < 2048 then [192 + n / 64, 128 + n % 64]
  else if n < 65536 then [224 + n / 4096, 128 + (n / 64) % 64, 128 + n % 64]
  else [240 + n / 262144, 128 + (n / 4096) % 64, 128 + (n / 64) % 64, 128 + n % 64]

/-- UTF-8 bytes of a character list. -/
def utf8L (l : List Char) : List Nat := l.foldr (fun c acc => utf8Char c ++ acc) []

/-! ### A model of root-locale `localeCompare` -/

/-- Primary collation weight of a character: its lower-cased code point
(shifted so that `0` can serve as a separator below). -/
def lowVal (c : Char) : Nat := if 65 ≤ cp c ∧ cp c ≤ 90 then cp c + 33 else cp c + 1

/-- Case (tertiary) weight: lower case before upper case. -/
def caseVal (c : Char) : Nat := if 65 ≤ cp c ∧ cp c ≤ 90 then 1 else 0

/-- Lexicographic comparison of weight lists. -/
def natListCmp : List Nat → List Nat → Ordering
  | [], [] => .eq
  | [], _ :: _ => .lt
  | _ :: _, [] => .gt
  | a :: as, b :: bs =>
    match compare a b with
    | .eq => natListCmp as bs
    | o => o

/-- Collation key: primary weights, then a separator, then case weights. -/
def locKey (s : String) : List Nat := s.data.map lowVal ++ 0 :: s.data.map caseVal

/-- Model of `String.prototype.localeCompare` under the default (root-locale
ICU) collation, restricted to the strings this program compares: characters
are compared case-insensitively at primary strength, and case differences
are tie-broken with lower case sorting before upper case. -/
def locCmp (a b : String) : Ordering := natListCmp (locKey a) (locKey b)

/-- The ordering used by `Array.prototype.sort` with the `localeCompare`
comparator. -/
def locLe (a b : String) : Prop := locCmp a b ≠ .gt

instance : DecidableRel locLe := fun a b => by unfold locLe; infer_instance

/-- Raw code-point key of a string (proof infrastructure). -/
def rawKey (s : String) : List Nat := s.data.map cp

/-- Primary (case-folded) key of a string. -/
def primKey (s : String) : List Nat := s.data.map lowVal

/-- Shift a weight list so that `0` can serve as a separator. -/
def shift1 (l : List Nat) : List Nat := l.map (· + 1)

/-- Collation key of a header pair: primary-strength name weights, tie-broken
by the raw name and then the raw value (proof infrastructure used to state
the canonical sorted form of the normalized header object; not part of the
embedded program). -/
def pairKey (p : String × String) : List Nat :=
  primKey p.1 ++ 0 :: (shift1 (rawKey p.1) ++ 0 :: shift1 (rawKey p.2))

/-- A full linear order on header pairs. -/
def pairCmp (p q : String × String) : Ordering := natListCmp (pairKey p) (pairKey q)

/-- Order form of `pairCmp`. -/
def pairLe (p q : String × String) : Prop := pairCmp p q ≠ .gt

instance : DecidableRel pairLe := fun p q => by unfold pairLe; infer_instance

/-! ### The request fingerprint (httpRequest.ts lines 33-49) -/

/-- Arguments of `httpRequest` (`HttpRequestArgs`): `data` is `unknown`;
`none` models `undefined` and `some .jnull` models `null`. -/
structure HttpArgs where
  url : String
  method : String
  headers : List (String × String) := []
  data : Option Json := none

/-- Uppercased method (line 17). -/
def upperMethodOf (a : HttpArgs) : String := upperStr a.method

/-- Merged request headers (lines 19-22): the default `Content-Type` first,
then the caller headers in insertion order, later keys overriding. -/
def fetchHeadersOf (a : HttpArgs) : List (String × String) :=
  a.headers.foldl (fun acc p => objUpsert acc p.1 p.2) [("Content-Type", "application/json")]

/-- Does the uppercased method carry a request body (line 29)? -/
def bodyAllowed (um : String) : Bool := um = "POST" || um = "PUT" || um = "PATCH"

/-- The transmitted body `init.body` (lines 29-31): present only for
POST/PUT/PATCH with `data` neither `undefined` nor `null`; strings pass
through verbatim, other values are JSON-encoded. -/
def initBodyOf (a : HttpArgs) : Option String :=
  if bodyAllowed (upperMethodOf a) then
    match a.data with
    | none => none
    | some .jnull => none
    | some (.jstr s) => some s
    | some j => some (stringify j)
  else none

/-- The `RequestInit` value passed to `fetch` (lines 24-31). -/
structure FetchInit where
  method : String
  headers : List (String × String)
  body : Option String

/-- Build the `RequestInit` for a request. -/
def buildInit (a : HttpArgs) : FetchInit :=
  { method := upperMethodOf a, headers := fetchHeadersOf a, body := initBodyOf a }

/-- Merged-header names contain `Authorization` case-insensitively (line 34). -/
def hasAuthOf (a : HttpArgs) : Bool :=
  (fetchHeadersOf a).any (fun p => lowerStr p.1 = "authorization")

/-- Cache eligibility (line 35): only GET with no Authorization header. -/
def canCacheOf (a : HttpArgs) : Bool := upperMethodOf a = "GET" && !hasAuthOf a

/-- Sorted keys of the merged headers (lines 41-42): original-cased names
sorted with `localeCompare`. -/
def sortedKeysOf (fh : List (String × String)) : List String :=
  (fh.map Prod.fst).insertionSort locLe

/-- The normalized header object (lines 41-46): iterate the sorted keys,
assigning `acc[k.toLowerCase()] = fetchHeaders[k]`. -/
def sortedHeaderObj (fh : List (String × String)) : List (String × String) :=
  (sortedKeysOf fh).foldl (fun acc k => objUpsert acc (lowerStr k) ((objLookup fh k).getD "")) []

/-- The canonical serialization `keyRaw` (lines 47-48):
`JSON.stringify` of the record with fields m, url, h, b. -/
def canonOf (a : HttpArgs) : List Char :=
  render (.jobj [("m", .jstr (upperMethodOf a)), ("url", .jstr a.url),
                 ("h", .jobj ((sortedHeaderObj (fetchHeadersOf a)).map
                    (fun p => (p.1, Json.jstr p.2)))),
                 ("b", .jstr ((initBodyOf a).getD ""))])

/-- The cache key (line 49): the namespace tag plus the hex SHA-256 digest of
the canonical serialization. -/
def fingerprintOf (a : HttpArgs) : String :=
  "http:" ++ String.mk (toHex (sha256 (utf8L (canonOf a))))

/-! ### The in-memory KV store (kv.ts lines 10-27) -/

/-- The backing `Map`: key, value, optional absolute expiry (ms). -/
abbrev KVState := List (String × String × Option Nat)

/-- Lookup in the backing map. -/
def kvLookup : KVState → String → Option (String × Option Nat)
  | [], _ => none
  | e :: t, k => if e.1 = k then some e.2 else kvLookup t k

/-- `Map.delete`. -/
def kvErase (st : KVState) (k : String) : KVState :=
  st.filter (fun e => decide (e.1 ≠ k))

/-- `Map.set` (insert or update in place). -/
def kvUpsert (st : KVState) (k : String) (v : String × Option Nat) : KVState :=
  if st.any (fun e => e.1 = k) then st.map (fun e => if e.1 = k then (k, v) else e)
  else st ++ [(k, v)]

/-- Memory-KV `get` (lines 13-21): a present entry whose (truthy) expiry has
passed is deleted and reported absent. -/
def memGet (now : Nat) (st : KVState) (k : String) : Option String × KVState :=
  match kvLookup st k with
  | none => (none, st)
  | some (v, e) =>
    let expired := match e with
      | some x => decide (x ≠ 0) && decide (now > x)
      | none => false
    if expired then (none, kvErase st k) else (some v, st)

/-- Memory-KV `set` (lines 22-25): a truthy (non-zero) TTL stores an absolute
expiry, otherwise no expiry. -/
def memSet (now : Nat) (st : KVState) (k v : String) (ttl : Option Nat) : KVState :=
  kvUpsert st k (v, match ttl with
    | some t => if t ≠ 0 then some (now + t * 1000) else none
    | none => none)

/-- Commands the Upstash wrapper can issue for `set` (kv.ts lines 54-61). -/
inductive RedisCmd where
  | setWithEx : String → String → Nat → RedisCmd
  | setPlain : String → String → RedisCmd

/-- The Redis command issued by the external-backend wrapper's `set`:
`redis.set(key, value, \x7b ex \x7d)` only for a truthy positive TTL. -/
def redisSetCmd (k v : String) (ttl : Option Nat) : RedisCmd :=
  match ttl with
  | some t => if 0 < t then .setWithEx k v t else .setPlain k v
  | none => .setPlain k v

/-! ### The HTTP executor (httpRequest.ts) -/

/-- The normalized response envelope (`ResponseData` in `types`). -/
structure ResponseData where
  status : Nat
  statusText : String
  headers : List (String × String)
  data : Json
  responseTime : Nat
  url : String
  fromCache : Bool

/-- JSON encoding of an envelope, with the field order of the object literal
at lines 83-91 (what `JSON.stringify(result)` serializes). -/
def encodeResp (r : ResponseData) : Json :=
  .jobj [("status", .jnum r.status), ("statusText", .jstr r.statusText),
         ("headers", .jobj (r.headers.map (fun p => (p.1, Json.jstr p.2)))),
         ("data", r.data), ("responseTime", .jnum r.responseTime),
         ("url", .jstr r.url), ("fromCache", .jbool r.fromCache)]

/-- Read a field of a parsed JSON object. -/
def getField : List (String × Json) → String → Option Json
  | [], _ => none
  | f :: t, k => if f.1 = k then some f.2 else getField t k

/-- Decode a JSON object of string values back into a header mapping. -/
def decodeStrPairs : List (String × Json) → Option (List (String × String))
  | [] => some []
  | (k, .jstr v) :: t => (decodeStrPairs t).map (fun l => (k, v) :: l)
  | _ => none

/-- Read a cached envelope back from parsed JSON.  The TS code performs an
unchecked cast (`JSON.parse(cached) as ResponseData`) and then spreads it;
this decoder models reading the expected fields back (entries written by
`httpRequest` itself always decode). -/
def decodeResp : Json → Option ResponseData
  | .jobj fs =>
    match getField fs "status", getField fs "statusText", getField fs "headers",
          getField fs "data", getField fs "responseTime", getField fs "url" with
    | some (.jnum st), some (.jstr sx), some (.jobj hs), some d, some (.jnum rt),
      some (.jstr u) =>
      (decodeStrPairs hs).map
        (fun hh => { status := st.toNat, statusText := sx, headers := hh, data := d,
                     responseTime := rt.toNat, url := u, fromCache := false })
    | _, _, _, _, _, _ => none
  | _ => none

/-- What the network returned for the single `fetch` this execution may
perform: status, status text, iterated response headers, raw body text, the
final (post-redirect) URL and the elapsed wall-clock time. -/
structure NetResp where
  status : Nat
  statusText : String
  headers : List (String × String)
  bodyText : String
  finalUrl : String
  elapsedMs : Nat

/-- Environment of one execution: the clock at entry, the transport outcome
(`.error` models a rejected `fetch`), and `HTTP_CACHE_TTL_SECONDS`. -/
structure HttpEnv where
  now : Nat
  net : Except String NetResp
  ttlCfg : Option Nat := none

/-- Case-insensitive response-header read (`res.headers.get`). -/
def lookupCI : List (String × String) → String → Option String
  | [], _ => none
  | p :: t, k => if lowerStr p.1 = lowerStr k then some p.2 else lookupCI t k

/-- The envelope built from a network response (lines 62-91): JSON bodies are
parsed when the content type declares JSON (falling back to raw text), any
other content type is kept as raw text. -/
def respFromNet (nr : NetResp) : ResponseData :=
  { status := nr.status, statusText := nr.statusText,
    headers := nr.headers.foldl (fun acc p => objUpsert acc p.1 p.2) [],
    data :=
      if containsSub ((lookupCI nr.headers "content-type").getD "") "application/json" then
        match jsonParse nr.bodyText with
        | some j => j
        | none => .jstr nr.bodyText
      else .jstr nr.bodyText,
    responseTime := nr.elapsedMs, url := nr.finalUrl, fromCache := false }

/-- Observable outcome of one `httpRequest` execution: the envelope, the
cache state afterwards, and traces of the network calls, the `RequestInit`
values sent, and the cache reads/writes performed. -/
structure HttpOutcome where
  resp : ResponseData
  kv : KVState
  netCalls : Nat
  sent : List FetchInit
  cacheReads : List String
  cacheWrites : List (String × String × Nat)

/-- The HTTP executor `httpRequest` (httpRequest.ts lines 13-101), as a state
transformer over the cache.  `.error` models a thrown exception (validation
failure or transport failure). -/
def httpRequest (a : HttpArgs) (env : HttpEnv) (st : KVState) : Except String HttpOutcome :=
  if a.url = "" then .error "URL is required"
  else if a.method = "" then .error "Method is required"
  else
    let canCache := canCacheOf a
    let key := fingerprintOf a
    let doNet := fun (st' : KVState) (reads : List String) =>
      match env.net with
      | .error e => Except.error e
      | .ok nr =>
        let result := respFromNet nr
        if canCache then
          let ttl := (env.ttlCfg).getD 1200
          Except.ok
            { resp := result,
              kv := memSet (env.now + nr.elapsedMs) st' key
                      (stringify (encodeResp result)) (some ttl),
              netCalls := 1, sent := [buildInit a], cacheReads := reads,
              cacheWrites := [(key, stringify (encodeResp result), ttl)] }
        else
          Except.ok { resp := result, kv := st', netCalls := 1, sent := [buildInit a],
                      cacheReads := reads, cacheWrites := [] }
    if canCache then
      match memGet env.now st key with
      | (some s, st1) =>
        if s ≠ "" then
          match jsonParse s with
          | some j =>
            match decodeResp j with
            | some r =>
              Except.ok { resp := { r with fromCache := true }, kv := st1, netCalls := 0,
                          sent := [], cacheReads := [key], cacheWrites := [] }
            | none => doNet st1 [key]
          | none => doNet st1 [key]
        else doNet st1 [key]
      | (none, st1) => doNet st1 [key]
    else doNet st []

/-! ### The streaming agent orchestrator (app/api/agent/route.ts) -/

/-- Extraction of the trailing action block (route.ts lines 14-36): prefer
the last `ACTIONS:` marker followed by a bracketed JSON array with code
fences stripped; when the marker or the brackets are absent, fall back to a
case-insensitive tag-delimited block.  A JSON parse failure is caught by the
surrounding try/catch and yields `none` without trying the fallback, exactly
as in the source. -/
def stripFences : List Char → List Char
  | c :: c2 :: c3 :: rest =>
    if c = Char.ofNat 96 ∧ c2 = Char.ofNat 96 ∧ c3 = Char.ofNat 96 then
      if startsWithL rest ['j', 's', 'o', 'n'] then stripFences (rest.drop 4)
      else stripFences rest
    else c :: stripFences (c2 :: c3 :: rest)
  | c :: cs => c :: stripFences cs
  | [] => []
termination_by l => l.length
decreasing_by all_goals (simp [List.length_drop]; try omega)

/-- The `ACTIONS:` marker. -/
def actionsMarker : List Char := ['A', 'C', 'T', 'I', 'O', 'N', 'S', ':']

/-- The opening tag of the fallback block. -/
def actionsOpenTag : List Char := ['<', 'a', 'c', 't', 'i', 'o', 'n', 's', '>']

/-- The closing tag of the fallback block. -/
def actionsCloseTag : List Char := ['<', '/', 'a', 'c', 't', 'i', 'o', 'n', 's', '>']

/-- Fallback scan for a tag-delimited action block (the lazy case-insensitive
regular expression at line 28): the first opening tag matched with the first
closing tag after it. -/
def tagActions (t : List Char) : Option (List Json) :=
  match findSubCI t actionsOpenTag with
  | some i =>
    let rest := t.drop (i + 9)
    match findSubCI rest actionsCloseTag with
    | some j =>
      match jsonParse (String.mk (trimL (rest.take j))) with
      | some (.jarr xs) => some xs
      | _ => none
    | none => none
  | none => none

/-- `extractActionsFromText` (route.ts lines 14-36). -/
def extractActions (text : String) : Option (List Json) :=
  let t := text.data
  match findSubLast t actionsMarker with
  | some i =>
    let cleaned := trimL (stripFences (t.drop (i + 8)))
    match findSub cleaned ['['], findSubLast cleaned [']'] with
    | some s, some e =>
      if s < e then
        match jsonParse (String.mk ((cleaned.drop s).take (e + 1 - s))) with
        | some (.jarr xs) => some xs
        | _ => none
      else tagActions t
    | _, _ => tagActions t
  | none => tagActions t

/-- Server-sent events of an agent turn, at payload level (the wire framing
`event: name / data: payload` is presentation). -/
inductive SseEvent where
  | stepStart : String → String → String → SseEvent
  | stepEnd : String → String → Option String → SseEvent
  | token : String → SseEvent
  | action : Json → SseEvent
  | done : SseEvent

/-- A `StepRecord` (persistence.ts): timestamps are readings of the wall
clock, modelled as offsets from the turn's base time. -/
structure StepRec where
  id : String
  ty : String
  status : String
  title : String
  started_at : Option Nat := none
  ended_at : Option Nat := none
  meta : Option Json := none

/-- The run transcript handed to `saveRun`. -/
structure Transcript where
  model : String
  mode : String
  userPrompt : String
  assistantText : String
  steps : List StepRec

/-- Outcome of the model phase: the streamed chunks, and for `failure` the
exception that aborts the read loop after those chunks arrived. -/
inductive LlmOutcome where
  | success : List String → LlmOutcome
  | failure : List String → String → LlmOutcome

/-- The optional tool invocation sent with the message (`tool.args || \x7b\x7d`
defaults missing args). -/
structure ToolReq where
  name : String
  args : Option HttpArgs := none

/-- One agent-mode request, after input validation. -/
structure AgentCfg where
  modelName : String
  userPrompt : String
  tool : Option ToolReq := none

/-- Environment of one agent turn: the HTTP environment and cache seen by the
tool phase, the model phase outcome, whether the persistence hand-off fails
(`saveRun` rejecting), and the base clock reading. -/
structure AgentEnv where
  httpEnv : HttpEnv
  kv0 : KVState := []
  llm : LlmOutcome
  saveFails : Bool := false
  t0 : Nat := 0

/-- Observable result of one agent turn: the ordered stream events and the
transcripts handed to the persistence collaborator. -/
structure TurnOut where
  events : List SseEvent
  saves : List Transcript

/-- The one-line tool summary (line 117). -/
def toolSummary (r : ResponseData) : String :=
  "HTTP " ++ toString r.status ++ " in " ++ toString r.responseTime ++ "ms"

/-- The agent-mode turn (route.ts lines 101-194), as the sequence of emitted
events plus persistence hand-offs.  The tool phase catches its own failure
and reports it as a failed step; a model-phase failure takes the outer catch
path, which still emits a failed `step_end` and `done` and hands off a
transcript with empty assistant text.  In this branch `mode` is literally
`'agent'`, so `String(mode || 'agent')` is `"agent"`.  The persistence
outcome (`env.saveFails`) is swallowed by the surrounding try/catch and
influences nothing. -/
def agentTurn (cfg : AgentCfg) (env : AgentEnv) : TurnOut :=
  let llmStepId := "llm-" ++ toString env.t0
  let toolStepId := "http-" ++ toString env.t0
  let toolPhase : List SseEvent × List StepRec :=
    match cfg.tool with
    | some tr =>
      if tr.name = "http_request" then
        let ev0 := SseEvent.stepStart toolStepId "http" "HTTP Request"
        match httpRequest (tr.args.getD { url := "", method := "" }) env.httpEnv env.kv0 with
        | .ok out =>
          ([ev0, .stepEnd toolStepId "succeeded" none, .token (toolSummary out.resp)],
           [{ id := toolStepId, ty := "http", status := "succeeded", title := "HTTP Request",
              started_at := some env.t0, ended_at := some (env.t0 + 1),
              meta := some (.jobj [("status", .jnum out.resp.status),
                                   ("responseTime", .jnum out.resp.responseTime),
                                   ("url", .jstr out.resp.url),
                                   ("fromCache", .jbool out.resp.fromCache)]) }])
        | .error msg =>
          ([ev0, .stepEnd toolStepId "failed" (some msg)],
           [{ id := toolStepId, ty := "http", status := "failed", title := "HTTP Request",
              started_at := some env.t0, ended_at := some (env.t0 + 1),
              meta := some (.jobj [("error", .jstr msg)]) }])
      else ([], [])
    | none => ([], [])
  let startLlm := SseEvent.stepStart llmStepId "llm" ("Model: " ++ cfg.modelName)
  match env.llm with
  | .success chunks =>
    let kept := chunks.filter (fun c => c ≠ "")
    let text := String.join kept
    let tokens := kept.map SseEvent.token
    let acts :=
      match extractActions text with
      | some l => l.map SseEvent.action
      | none => []
    { events := toolPhase.1 ++ startLlm :: tokens ++ acts ++
        [.stepEnd llmStepId "succeeded" none, .done],
      saves := [{ model := cfg.modelName, mode := "agent", userPrompt := cfg.userPrompt,
                  assistantText := text,
                  steps := toolPhase.2 ++
                    [{ id := llmStepId, ty := "llm", status := "succeeded",
                       title := "Model: " ++ cfg.modelName,
                       started_at := some (env.t0 + 2), ended_at := some (env.t0 + 3) }] }] }
  | .failure chunks msg =>
    let kept := chunks.filter (fun c => c ≠ "")
    let tokens := kept.map SseEvent.token
    { events := toolPhase.1 ++ startLlm :: tokens ++
        [.stepEnd llmStepId "failed" (some msg), .done],
      saves := [{ model := cfg.modelName, mode := "agent", userPrompt := cfg.userPrompt,
                  assistantText := "",
                  steps := toolPhase.2 ++
                    [{ id := llmStepId, ty := "llm", status := "failed",
                       title := "Model: " ++ cfg.modelName }] }] }

/-- Classifier of `action` events (observable used to count them). -/
def isActionEv : SseEvent → Bool
  | .stepStart _ _ _ => false
  | .stepEnd _ _ _ => false
  | .token _ => false
  | .action _ => true
  | .done => false

/-! ## Theorems -/

/-! ### Basic character facts -/

theorem cp_ofNat (n : Nat) (h : n < 55296) : cp (Char.ofNat n) = n := by
  have hv : n.isValidChar := Or.inl h
  simp [cp, Char.ofNat, dif_pos hv, Char.ofNatAux, Char.toNat, UInt32.toNat]

theorem cp_inj {c d : Char} (h : cp c = cp d) : c = d := by
  have h2 : Char.ofNat (cp c) = Char.ofNat (cp d) := by rw [h]
  simpa [cp, Char.ofNat_toNat] using h2

theorem cp_lt (c : Char) : cp c < 1114112 := by
  rcases c.valid with h | ⟨_, h2⟩
  · exact Nat.lt_trans h (by norm_num)
  · exact h2

theorem lowerChar_cp (c : Char) :
    cp (lowerChar c) = if 65 ≤ cp c ∧ cp c ≤ 90 then cp c + 32 else cp c := by
  unfold lowerChar
  split
  · next hr => exact cp_ofNat _ (by omega)
  · rfl

theorem upperChar_cp (c : Char) :
    cp (upperChar c) = if 97 ≤ cp c ∧ cp c ≤ 122 then cp c - 32 else cp c := by
  unfold upperChar
  split
  · next hr => exact cp_ofNat _ (by omega)
  · rfl

theorem eq_of_lower_case {c d : Char} (hl : lowerChar c = lowerChar d)
    (hc : caseVal c = caseVal d) : c = d := by
  have hl' : cp (lowerChar c) = cp (lowerChar d) := by rw [hl]
  rw [lowerChar_cp, lowerChar_cp] at hl'
  unfold caseVal at hc
  apply cp_inj
  split_ifs at hl' hc <;> omega

theorem lowVal_eq (c : Char) : lowVal c = cp (lowerChar c) + 1 := by
  unfold lowVal
  rw [lowerChar_cp]
  split_ifs <;> omega

theorem caseVal_lowerChar (c : Char) : caseVal (lowerChar c) = 0 := by
  unfold caseVal
  rw [lowerChar_cp]
  split_ifs <;> omega

theorem hexVal_hexDig (m : Nat) (h : m < 16) : hexVal (hexDig m) = some m := by
  interval_cases m <;> decide

theorem isDig_hexDig (m : Nat) (h : m < 10) : isDig (hexDig m) = true := by
  interval_cases m <;> decide

theorem cp_hexDig_sub (m : Nat) (h : m < 10) : cp (hexDig m) - 48 = m := by
  interval_cases m <;> decide

/-! ### Unique decodability of `JSON.stringify` string escaping -/

theorem escChar_classify (c : Char) :
    (escChar c = [c] ∧ c ≠ '"' ∧ c ≠ '\\' ∧ 32 ≤ cp c)
    ∨ (∃ e, escChar c = ['\\', e] ∧ e ≠ 'u' ∧ unescChar e = some c)
    ∨ (cp c < 32 ∧
        escChar c = ['\\', 'u', '0', '0', hexDig (cp c / 16), hexDig (cp c % 16)]) := by
  unfold escChar
  split_ifs with h1 h2 h3 h4 h5 h6 h7 h8
  · subst h1; exact .inr (.inl ⟨'"', rfl, by decide, by decide⟩)
  · subst h2; exact .inr (.inl ⟨'\\', rfl, by decide, by decide⟩)
  · subst h3; exact .inr (.inl ⟨'b', rfl, by decide, by decide⟩)
  · subst h4; exact .inr (.inl ⟨'f', rfl, by decide, by decide⟩)
  · subst h5; exact .inr (.inl ⟨'n', rfl, by decide, by decide⟩)
  · subst h6; exact .inr (.inl ⟨'r', rfl, by decide, by decide⟩)
  · subst h7; exact .inr (.inl ⟨'t', rfl, by decide, by decide⟩)
  · exact .inr (.inr ⟨h8, rfl⟩)
  · exact .inl ⟨rfl, h1, h2, by omega⟩

theorem escChar_decode {c1 c2 : Char} {t1 t2 : List Char}
    (h : escChar c1 ++ t1 = escChar c2 ++ t2) : c1 = c2 ∧ t1 = t2 := by
  rcases escChar_classify c1 with ⟨he1, hq1, hb1, hge1⟩ | ⟨e1, he1, hu1, hun1⟩ | ⟨hlt1, he1⟩ <;>
    rcases escChar_classify c2 with ⟨he2, hq2, hb2, hge2⟩ | ⟨e2, he2, hu2, hun2⟩ | ⟨hlt2, he2⟩ <;>
    rw [he1, he2] at h <;> simp at h
  · exact ⟨h.1, h.2⟩
  · exact absurd h.1 hb1
  · exact absurd h.1 hb1
  · exact absurd h.1.symm hb2
  · obtain ⟨he, ht⟩ := h
    subst he
    rw [hun1] at hun2
    exact ⟨Option.some.inj hun2, ht⟩
  · exact absurd h.1 hu1
  · exact absurd h.1.symm hb2
  · exact absurd h.1.symm hu2
  · obtain ⟨hd1, hd2, ht⟩ := h
    have e1 : hexVal (hexDig (cp c1 / 16)) = hexVal (hexDig (cp c2 / 16)) := by rw [hd1]
    have e2 : hexVal (hexDig (cp c1 % 16)) = hexVal (hexDig (cp c2 % 16)) := by rw [hd2]
    rw [hexVal_hexDig _ (by omega), hexVal_hexDig _ (by omega)] at e1
    rw [hexVal_hexDig _ (by omega), hexVal_hexDig _ (by omega)] at e2
    have hcc : cp c1 = cp c2 := by
      have q1 := Option.some.inj e1
      have q2 := Option.some.inj e2
      omega
    exact ⟨cp_inj hcc, ht⟩

theorem escChar_head_ne_quote (c : Char) {t l : List Char}
    (h : escChar c ++ t = '"' :: l) : False := by
  rcases escChar_classify c with ⟨he, hq, _, _⟩ | ⟨e, he, _, _⟩ | ⟨_, he⟩ <;>
    rw [he] at h <;> simp at h
  all_goals simp_all

theorem escL_decode : ∀ (s1 s2 t1 t2 : List Char),
    escL s1 ++ '"' :: t1 = escL s2 ++ '"' :: t2 → s1 = s2 ∧ t1 = t2 := by
  intro s1
  induction s1 with
  | nil =>
    intro s2 t1 t2 h
    cases s2 with
    | nil => simpa using h
    | cons c2 s2' =>
      exfalso
      simp only [escL, List.nil_append, List.append_assoc] at h
      exact escChar_head_ne_quote c2 h.symm
  | cons c1 s1' ih =>
    intro s2 t1 t2 h
    cases s2 with
    | nil =>
      exfalso
      simp only [escL, List.nil_append, List.append_assoc] at h
      exact escChar_head_ne_quote c1 h
    | cons c2 s2' =>
      simp only [escL, List.append_assoc] at h
      obtain ⟨hc, ht⟩ := escChar_decode h
      obtain ⟨hs, ht'⟩ := ih s2' t1 t2 ht
      exact ⟨by rw [hc, hs], ht'⟩

/-! ### Decimal digit rendering and reparsing -/

theorem natDigits_ne_nil (n : Nat) : natDigits n ≠ [] := by
  rw [natDigits]
  split <;> simp

theorem natDigits_all_isDig : ∀ n, ∀ c ∈ natDigits n, isDig c = true := by
  intro n
  induction n using Nat.strong_induction_on with
  | _ n ih =>
    intro c hc
    rw [natDigits] at hc
    split at hc
    · next h =>
      simp at hc
      subst hc
      exact isDig_hexDig _ (by omega)
    · next h =>
      simp at hc
      rcases hc with h1 | h1
      · exact ih (n / 10) (Nat.div_lt_self (by omega) (by omega)) c h1
      · subst h1
        exact isDig_hexDig _ (by omega)

theorem digitsAux_append (ds : List Char) :
    ∀ (acc : Nat) (r : List Char), (∀ c ∈ ds, isDig c = true) → headDigit r = false →
    digitsAux acc (ds ++ r) = (ds.foldl (fun a c => a * 10 + (cp c - 48)) acc, r) := by
  induction ds with
  | nil =>
    intro acc r _ hr
    cases r with
    | nil => rfl
    | cons c r' =>
      simp only [headDigit] at hr
      simp [digitsAux, hr]
  | cons d ds' ih =>
    intro acc r hd hr
    have hdig : isDig d = true := hd d (by simp)
    simp only [List.cons_append, digitsAux, hdig, if_pos]
    rw [show ds'.append r = ds' ++ r from rfl,
      ih _ r (fun c hc => hd c (by simp [hc])) hr]
    simp [List.foldl]

theorem natDigits_foldl : ∀ (n acc : Nat),
    (natDigits n).foldl (fun a c => a * 10 + (cp c - 48)) acc
      = acc * 10 ^ (natDigits n).length + n := by
  intro n
  induction n using Nat.strong_induction_on with
  | _ n ih =>
    intro acc
    rw [natDigits]
    split
    · next h =>
      simp [List.foldl, cp_hexDig_sub n h]
    · next h =>
      rw [List.foldl_append, ih (n / 10) (Nat.div_lt_self (by omega) (by omega))]
      simp only [List.foldl, List.length_append, List.length_singleton]
      rw [cp_hexDig_sub _ (by omega)]
      have hp : 10 ^ ((natDigits (n / 10)).length + 1) = 10 ^ (natDigits (n / 10)).length * 10 :=
        pow_succ 10 _
      rw [hp]
      have hnm : 10 * (n / 10) + n % 10 = n := Nat.div_add_mod n 10
      ring_nf
      omega

theorem digitsAux_natDigits (n : Nat) (r : List Char) (hr : headDigit r = false) :
    digitsAux 0 (natDigits n ++ r) = (n, r) := by
  rw [digitsAux_append _ 0 r (natDigits_all_isDig n) hr, natDigits_foldl]
  simp

/-! ### String-literal roundtrip -/

theorem parseStrBody_quote (t : List Char) : parseStrBody ('"' :: t) = some ([], t) := by
  rw [parseStrBody.eq_def]
  simp

theorem parseStrBody_plain {c : Char} (h1 : c ≠ '"') (h2 : c ≠ '\\') (t : List Char) :
    parseStrBody (c :: t) = (parseStrBody t).map (fun p => (c :: p.1, p.2)) := by
  rw [parseStrBody.eq_def]
  simp [h1, h2]

theorem parseStrBody_esc {e d : Char} (hu : e ≠ 'u') (hun : unescChar e = some d)
    (t : List Char) :
    parseStrBody ('\\' :: e :: t) = (parseStrBody t).map (fun p => (d :: p.1, p.2)) := by
  rw [parseStrBody.eq_def]
  simp [hu, hun]

theorem parseStrBody_uesc {h1 h2 h3 h4 : Char} {v1 v2 v3 v4 : Nat}
    (e1 : hexVal h1 = some v1) (e2 : hexVal h2 = some v2) (e3 : hexVal h3 = some v3)
    (e4 : hexVal h4 = some v4) (t : List Char) :
    parseStrBody ('\\' :: 'u' :: h1 :: h2 :: h3 :: h4 :: t)
      = (parseStrBody t).map
          (fun p => (Char.ofNat (((v1 * 16 + v2) * 16 + v3) * 16 + v4) :: p.1, p.2)) := by
  rw [parseStrBody.eq_def]
  simp [e1, e2, e3, e4]

theorem parseStrBody_escL : ∀ (s t : List Char),
    parseStrBody (escL s ++ '"' :: t) = some (s, t) := by
  intro s
  induction s with
  | nil => intro t; simpa [escL] using parseStrBody_quote t
  | cons c s' ih =>
    intro t
    rcases escChar_classify c with ⟨he, hq, hb, hge⟩ | ⟨e, he, hu, hun⟩ | ⟨hlt, he⟩
    · simp only [escL, he, List.append_assoc, List.singleton_append, List.cons_append,
        List.nil_append]
      rw [parseStrBody_plain hq hb, ih]
      rfl
    · simp only [escL, he, List.append_assoc, List.cons_append, List.nil_append]
      rw [parseStrBody_esc hu hun, ih]
      rfl
    · simp only [escL, he, List.append_assoc, List.cons_append, List.nil_append]
      rw [parseStrBody_uesc (show hexVal '0' = some 0 by decide)
            (show hexVal '0' = some 0 by decide)
            (hexVal_hexDig _ (by omega)) (hexVal_hexDig _ (by omega)), ih]
      have hval : ((0 * 16 + 0) * 16 + cp c / 16) * 16 + cp c % 16 = cp c := by omega
      rw [hval]
      simp [cp, Char.ofNat_toNat]


theorem skipWs_not_ws {c : Char} (h : isJsonWs c = false) (t : List Char) :
    skipWs (c :: t) = c :: t := by
  simp [skipWs, h]

theorem jsize_pos (j : Json) : 1 ≤ jsize j := by
  cases j <;> simp [jsize]

theorem sizeItems_pos {xs : List Json} (h : xs ≠ []) : 1 ≤ sizeItems xs := by
  cases xs with
  | nil => exact absurd rfl h
  | cons x t => simp [sizeItems]

theorem sizeFields_pos {fs : List (String × Json)} (h : fs ≠ []) : 1 ≤ sizeFields fs := by
  cases fs with
  | nil => exact absurd rfl h
  | cons f t => simp [sizeFields]

theorem isDig_cp {c : Char} (h : isDig c = true) : 48 ≤ cp c ∧ cp c ≤ 57 := by
  simp [isDig] at h
  omega

theorem render_head (j : Json) :
    ∃ c t, render j = c :: t ∧
      (c = 'n' ∨ c = 't' ∨ c = 'f' ∨ c = '"' ∨ c = '[' ∨ c = '{' ∨ c = '-' ∨ isDig c = true) := by
  cases j with
  | jnull => exact ⟨'n', _, rfl, .inl rfl⟩
  | jbool b =>
    cases b with
    | false => exact ⟨'f', _, rfl, by tauto⟩
    | true => exact ⟨'t', _, rfl, by tauto⟩
  | jnum i =>
    by_cases hneg : i < 0
    · refine ⟨'-', natDigits i.natAbs, ?_, by tauto⟩
      simp [render, intDigits, hneg]
    · obtain ⟨c, t, hct⟩ := List.exists_cons_of_ne_nil (natDigits_ne_nil i.natAbs)
      refine ⟨c, t, ?_, ?_⟩
      · simp [render, intDigits, hneg, hct]
      · have : c ∈ natDigits i.natAbs := by rw [hct]; simp
        exact .inr (.inr (.inr (.inr (.inr (.inr (.inr (natDigits_all_isDig _ c this)))))))
  | jstr s => exact ⟨'"', _, rfl, by tauto⟩
  | jarr xs => exact ⟨'[', _, rfl, by tauto⟩
  | jobj fs => exact ⟨'{', _, rfl, by tauto⟩

theorem isDig_sep {c : Char} (h : isDig c = true) :
    isJsonWs c = false ∧ c ≠ ']' ∧ c ≠ '}' := by
  have hb := isDig_cp h
  refine ⟨?_, ?_, ?_⟩
  · cases hw : isJsonWs c with
    | false => rfl
    | true =>
      exfalso
      simp [isJsonWs] at hw
      rcases hw with ((hc | hc) | hc) | hc <;> (subst hc; exact absurd hb (by decide))
  · intro hc; subst hc; exact absurd hb (by decide)
  · intro hc; subst hc; exact absurd hb (by decide)

theorem render_head_props (j : Json) :
    ∃ c t, render j = c :: t ∧ isJsonWs c = false ∧ c ≠ ']' ∧ c ≠ '}' := by
  obtain ⟨c, t, hct, hd⟩ := render_head j
  refine ⟨c, t, hct, ?_, ?_, ?_⟩ <;>
    rcases hd with h | h | h | h | h | h | h | h <;>
      first
        | (subst h; decide)
        | exact (isDig_sep h).1
        | exact (isDig_sep h).2.1
        | exact (isDig_sep h).2.2



theorem renderItems_cons (x : Json) (xs : List Json) :
    ∃ q, renderItems (x :: xs) = render x ++ q := by
  cases xs with
  | nil => exact ⟨[], by simp [renderItems]⟩
  | cons y ys => exact ⟨',' :: renderItems (y :: ys), by simp [renderItems]⟩

theorem isDig_not_special {c : Char} (h : isDig c = true) :
    c ≠ 'n' ∧ c ≠ 't' ∧ c ≠ 'f' ∧ c ≠ '"' ∧ c ≠ '[' ∧ c ≠ '{' ∧ c ≠ '-' := by
  have hb := isDig_cp h
  refine ⟨?_, ?_, ?_, ?_, ?_, ?_, ?_⟩ <;> (intro hc; subst hc; exact absurd hb (by decide))

theorem parse_rt : ∀ fuel : Nat,
    (∀ j (r : List Char), jsize j ≤ fuel → headDigit r = false →
        parseVal fuel (render j ++ r) = some (j, r))
    ∧ (∀ xs (r : List Char), xs ≠ [] → sizeItems xs ≤ fuel →
        parseItems fuel (renderItems xs ++ ']' :: r) = some (xs, r))
    ∧ (∀ fs (r : List Char), fs ≠ [] → sizeFields fs ≤ fuel →
        parseFields fuel (renderFields fs ++ '}' :: r) = some (fs, r)) := by
  intro fuel
  induction fuel with
  | zero =>
    refine ⟨fun j r hj _ => absurd hj (by have := jsize_pos j; omega),
            fun xs r hne hs => absurd hs (by have := sizeItems_pos hne; omega),
            fun fs r hne hs => absurd hs (by have := sizeFields_pos hne; omega)⟩
  | succ fuel ih =>
    obtain ⟨ihv, ihi, ihf⟩ := ih
    refine ⟨?_, ?_, ?_⟩
    · -- values
      intro j r hj hr
      cases j with
      | jnull =>
        show parseVal (fuel + 1) ('n' :: 'u' :: 'l' :: 'l' :: r) = _
        rw [parseVal.eq_2, skipWs_not_ws (by decide)]
        simp [startsWithL]
      | jbool b =>
        cases b with
        | true =>
          show parseVal (fuel + 1) ('t' :: 'r' :: 'u' :: 'e' :: r) = _
          rw [parseVal.eq_2, skipWs_not_ws (by decide)]
          simp [startsWithL]
        | false =>
          show parseVal (fuel + 1) ('f' :: 'a' :: 'l' :: 's' :: 'e' :: r) = _
          rw [parseVal.eq_2, skipWs_not_ws (by decide)]
          simp [startsWithL]
      | jnum i =>
        obtain ⟨d, ds, hds⟩ := List.exists_cons_of_ne_nil (natDigits_ne_nil i.natAbs)
        have hdig : isDig d = true := by
          apply natDigits_all_isDig i.natAbs
          rw [hds]; simp
        have hdaux : digitsAux (cp d - 48) (ds ++ r) = (i.natAbs, r) := by
          have h0 := digitsAux_natDigits i.natAbs r hr
          rw [hds] at h0
          simpa [digitsAux, hdig] using h0
        have hspec := isDig_not_special hdig
        by_cases hneg : i < 0
        · have hrend : render (.jnum i) = '-' :: natDigits i.natAbs := by
            simp [render, intDigits, hneg]
          rw [hrend]
          show parseVal (fuel + 1) ('-' :: (natDigits i.natAbs ++ r)) = _
          rw [parseVal.eq_2, skipWs_not_ws (by decide), hds]
          show (if '-' = 'n' then _ else _) = _
          simp only [show ('-' : Char) ≠ 'n' from by decide,
            show ('-' : Char) ≠ 't' from by decide, show ('-' : Char) ≠ 'f' from by decide,
            show ('-' : Char) ≠ '"' from by decide, show ('-' : Char) ≠ '[' from by decide,
            show ('-' : Char) ≠ '{' from by decide, if_neg, if_pos, reduceIte]
          have hi : -Int.ofNat i.natAbs = i := by
            simp only [Int.ofNat_eq_natCast]
            omega
          simp only [List.cons_append, hdig, if_pos, hdaux, hi]
        · have hrend : render (.jnum i) = natDigits i.natAbs := by
            simp [render, intDigits, hneg]
          rw [hrend, hds]
          show parseVal (fuel + 1) (d :: (ds ++ r)) = _
          rw [parseVal.eq_2, skipWs_not_ws (isDig_sep hdig).1]
          obtain ⟨h1, h2, h3, h4, h5, h6, h7⟩ := hspec
          have hi : Int.ofNat i.natAbs = i := by
            simp only [Int.ofNat_eq_natCast]
            omega
          simp only [h1, h2, h3, h4, h5, h6, h7, if_neg, hdig, if_pos, reduceIte, hdaux, hi]
      | jstr s =>
        show parseVal (fuel + 1) ('"' :: (escL s.data ++ ['"'] ++ r)) = _
        rw [parseVal.eq_2, skipWs_not_ws (by decide)]
        simp only [show ('"' : Char) ≠ 'n' from by decide, show ('"' : Char) ≠ 't' from by decide,
          show ('"' : Char) ≠ 'f' from by decide, if_neg, reduceIte]
        rw [List.append_assoc, List.singleton_append, parseStrBody_escL]
        rfl
      | jarr xs =>
        cases xs with
        | nil =>
          show parseVal (fuel + 1) ('[' :: ']' :: r) = _
          rw [parseVal.eq_2, skipWs_not_ws (by decide)]
          simp [skipWs, show isJsonWs ']' = false from by decide]
        | cons x xs' =>
          have hsz : sizeItems (x :: xs') ≤ fuel := by
            have : jsize (.jarr (x :: xs')) = sizeItems (x :: xs') + 1 := by simp [jsize]
            omega
          have hre : render (Json.jarr (x :: xs')) ++ r
              = '[' :: (renderItems (x :: xs') ++ ']' :: r) := by
            simp [render]
          rw [hre, parseVal.eq_2, skipWs_not_ws (by decide)]
          simp only [show ('[' : Char) ≠ 'n' from by decide,
            show ('[' : Char) ≠ 't' from by decide, show ('[' : Char) ≠ 'f' from by decide,
            show ('[' : Char) ≠ '"' from by decide, if_neg, reduceIte]
          obtain ⟨hc, ht, hct, hwsf, hne1, hne2⟩ := render_head_props x
          obtain ⟨q, hq⟩ := renderItems_cons x xs'
          have hsk : skipWs (renderItems (x :: xs') ++ ']' :: r)
              = hc :: (ht ++ q ++ ']' :: r) := by
            rw [hq, hct]
            simp only [List.cons_append, List.append_assoc]
            exact skipWs_not_ws hwsf _
          rw [hsk]
          simp only [hne1, if_neg, reduceIte]
          rw [ihi (x :: xs') r (by simp) hsz]
          rfl
      | jobj fs =>
        cases fs with
        | nil =>
          show parseVal (fuel + 1) ('{' :: '}' :: r) = _
          rw [parseVal.eq_2, skipWs_not_ws (by decide)]
          simp [skipWs, show isJsonWs '}' = false from by decide]
        | cons f fs' =>
          have hsz : sizeFields (f :: fs') ≤ fuel := by
            have : jsize (.jobj (f :: fs')) = sizeFields (f :: fs') + 1 := by simp [jsize]
            omega
          have hre : render (Json.jobj (f :: fs')) ++ r
              = '{' :: (renderFields (f :: fs') ++ '}' :: r) := by
            simp [render]
          rw [hre, parseVal.eq_2, skipWs_not_ws (by decide)]
          simp only [show ('{' : Char) ≠ 'n' from by decide,
            show ('{' : Char) ≠ 't' from by decide, show ('{' : Char) ≠ 'f' from by decide,
            show ('{' : Char) ≠ '"' from by decide, show ('{' : Char) ≠ '[' from by decide,
            if_neg, reduceIte]
          have hsk : ∃ w, skipWs (renderFields (f :: fs') ++ '}' :: r) = '"' :: w := by
            cases fs' with
            | nil =>
              refine ⟨escL f.1.data ++ '"' :: ':' :: render f.2 ++ '}' :: r, ?_⟩
              simp only [renderFields, List.cons_append, List.append_assoc]
              exact skipWs_not_ws (by decide) _
            | cons g gs =>
              refine ⟨escL f.1.data ++ '"' :: ':' :: render f.2 ++
                ',' :: renderFields (g :: gs) ++ '}' :: r, ?_⟩
              simp only [renderFields, List.cons_append, List.append_assoc]
              exact skipWs_not_ws (by decide) _
          obtain ⟨w, hw⟩ := hsk
          rw [hw]
          simp only [show ('"' : Char) ≠ '}' from by decide, if_neg, reduceIte]
          rw [ihf (f :: fs') r (by simp) hsz]
          rfl
    · -- items
      intro xs r hne hs
      cases xs with
      | nil => exact absurd rfl hne
      | cons x xs' =>
        cases xs' with
        | nil =>
          show parseItems (fuel + 1) (render x ++ ']' :: r) = _
          have hh : headDigit (']' :: r) = false := by
            simp only [headDigit]
            decide
          rw [parseItems.eq_2,
            ihv x (']' :: r) (by simp only [sizeItems] at hs; omega) hh]
          simp [skipWs, show isJsonWs ']' = false from by decide]
        | cons y ys =>
          have h1 : jsize x ≤ fuel := by simp only [sizeItems] at hs; omega
          have h2 : sizeItems (y :: ys) ≤ fuel := by
            simp only [sizeItems] at hs ⊢
            omega
          have hre : renderItems (x :: y :: ys) ++ ']' :: r
              = render x ++ ',' :: (renderItems (y :: ys) ++ ']' :: r) := by
            simp [renderItems]
          have hh : headDigit (',' :: (renderItems (y :: ys) ++ ']' :: r)) = false := by
            simp only [headDigit]
            decide
          rw [hre, parseItems.eq_2,
            ihv x (',' :: (renderItems (y :: ys) ++ ']' :: r)) h1 hh]
          simp [skipWs, show isJsonWs ',' = false from by decide,
            ihi (y :: ys) r (by simp) h2]
    · -- fields
      intro fs r hne hs
      cases fs with
      | nil => exact absurd rfl hne
      | cons f fs' =>
        obtain ⟨k, v⟩ := f
        have hjv : jsize v ≤ fuel := by simp [sizeFields] at hs; omega
        cases fs' with
        | nil =>
          have hre : renderFields [(k, v)] ++ '}' :: r
              = '"' :: (escL k.data ++ '"' :: (':' :: (render v ++ '}' :: r))) := by
            simp [renderFields]
          rw [hre, parseFields.eq_2, skipWs_not_ws (by decide)]
          simp only [reduceIte, parseStrBody_escL]
          rw [show skipWs (':' :: (render v ++ '}' :: r))
                = ':' :: (render v ++ '}' :: r) from skipWs_not_ws (by decide) _]
          have hh : headDigit ('}' :: r) = false := by
            simp only [headDigit]
            decide
          simp only [reduceIte, ihv v ('}' :: r) hjv hh]
          simp [skipWs, show isJsonWs '}' = false from by decide]
        | cons g gs =>
          have hsg : sizeFields (g :: gs) ≤ fuel := by
            simp only [sizeFields] at hs ⊢
            omega
          have hre : renderFields ((k, v) :: g :: gs) ++ '}' :: r
              = '"' :: (escL k.data ++ '"' ::
                  (':' :: (render v ++ ',' :: (renderFields (g :: gs) ++ '}' :: r)))) := by
            simp [renderFields]
          rw [hre, parseFields.eq_2, skipWs_not_ws (by decide)]
          simp only [reduceIte, parseStrBody_escL]
          rw [show skipWs (':' :: (render v ++ ',' :: (renderFields (g :: gs) ++ '}' :: r)))
                = ':' :: (render v ++ ',' :: (renderFields (g :: gs) ++ '}' :: r))
              from skipWs_not_ws (by decide) _]
          have hh : headDigit (',' :: (renderFields (g :: gs) ++ '}' :: r)) = false := by
            simp only [headDigit]
            decide
          simp only [reduceIte,
            ihv v (',' :: (renderFields (g :: gs) ++ '}' :: r)) hjv hh]
          simp [skipWs, show isJsonWs ',' = false from by decide,
            ihf (g :: gs) r (by simp) hsg]


theorem render_length_pos (j : Json) : 1 ≤ (render j).length := by
  obtain ⟨c, t, hct, _⟩ := render_head j
  rw [hct]
  simp

theorem jsize_bound : ∀ n : Nat,
    (∀ j : Json, jsize j ≤ n → jsize j ≤ (render j).length)
    ∧ (∀ xs : List Json, sizeItems xs ≤ n → sizeItems xs ≤ (renderItems xs).length + 1)
    ∧ (∀ fs : List (String × Json), sizeFields fs ≤ n →
        sizeFields fs ≤ (renderFields fs).length + 1) := by
  intro n
  induction n with
  | zero =>
    refine ⟨fun j h => absurd h (by have := jsize_pos j; omega), fun xs h => ?_,
            fun fs h => ?_⟩
    · cases xs with
      | nil => simp [sizeItems]
      | cons x t => exact absurd h (by have := sizeItems_pos (List.cons_ne_nil x t); omega)
    · cases fs with
      | nil => simp [sizeFields]
      | cons f t => exact absurd h (by have := sizeFields_pos (List.cons_ne_nil f t); omega)
  | succ n ih =>
    obtain ⟨ihv, ihi, ihf⟩ := ih
    refine ⟨?_, ?_, ?_⟩
    · intro j hsz
      cases j with
      | jnull => simp [jsize, render]
      | jbool b => cases b <;> simp [jsize, render]
      | jnum i =>
        have := render_length_pos (.jnum i)
        simp only [jsize]
        omega
      | jstr s => simp [jsize, render]
      | jarr xs =>
        simp only [jsize] at hsz ⊢
        have h1 := ihi xs (by omega)
        have hlen : (render (Json.jarr xs)).length = (renderItems xs).length + 2 := by
          simp [render]
        omega
      | jobj fs =>
        simp only [jsize] at hsz ⊢
        have h1 := ihf fs (by omega)
        have hlen : (render (Json.jobj fs)).length = (renderFields fs).length + 2 := by
          simp [render]
        omega
    · intro xs hsz
      cases xs with
      | nil => simp [sizeItems]
      | cons x t =>
        simp only [sizeItems] at hsz ⊢
        have h1 := ihv x (by omega)
        cases t with
        | nil =>
          simp only [sizeItems, renderItems]
          omega
        | cons y ys =>
          have h2 := ihi (y :: ys) (by simp only [sizeItems] at hsz ⊢; omega)
          have h3 := render_length_pos x
          have hlen : (renderItems (x :: y :: ys)).length
              = (render x).length + 1 + (renderItems (y :: ys)).length := by
            simp [renderItems]
            omega
          omega
    · intro fs hsz
      cases fs with
      | nil => simp [sizeFields]
      | cons f t =>
        rcases f with ⟨k, v⟩
        simp [sizeFields] at hsz ⊢
        have h1 := ihv v (by omega)
        cases t with
        | nil =>
          have hlen : (renderFields [(k, v)]).length
              = (escL k.data).length + 3 + (render v).length := by
            simp [renderFields]
            omega
          simp [sizeFields]
          omega
        | cons g gs =>
          have h2 := ihf (g :: gs) (by simp [sizeFields] at hsz ⊢; omega)
          have h3 := render_length_pos v
          have hlen : (renderFields ((k, v) :: g :: gs)).length
              = (escL k.data).length + 3 + (render v).length + 1
                + (renderFields (g :: gs)).length := by
            simp [renderFields]
            omega
          simp [sizeFields] at h2 ⊢
          omega

theorem jsonParse_stringify (j : Json) : jsonParse (stringify j) = some j := by
  have hb : jsize j ≤ (render j).length := (jsize_bound (jsize j)).1 j le_rfl
  have hrt := (parse_rt ((render j).length + 1)).1 j [] (by omega) rfl
  rw [List.append_nil] at hrt
  unfold jsonParse stringify
  simp only [hrt]
  rfl


/-! ### Envelope serialization roundtrip -/

theorem decodeStrPairs_map (l : List (String × String)) :
    decodeStrPairs (l.map (fun p => (p.1, Json.jstr p.2))) = some l := by
  induction l with
  | nil => rfl
  | cons p t ih =>
    rcases p with ⟨k, v⟩
    simp [decodeStrPairs, ih]

theorem decodeResp_encodeResp (r : ResponseData) :
    decodeResp (encodeResp r) = some { r with fromCache := false } := by
  simp [encodeResp, decodeResp, getField, decodeStrPairs_map]

theorem stringify_ne_empty (j : Json) : stringify j ≠ "" := by
  obtain ⟨c, t, hct, _⟩ := render_head j
  unfold stringify
  rw [hct]
  intro hcon
  have : (String.mk (c :: t)).data = ("" : String).data := by rw [hcon]
  simp at this


/-! ### In-memory KV store -/

theorem kvLookup_map_upd {k : String} {v : String × Option Nat} :
    ∀ st : KVState, st.any (fun e => e.1 = k) = true →
      kvLookup (st.map (fun e => if e.1 = k then (k, v) else e)) k = some v := by
  intro st
  induction st with
  | nil => intro h; simp at h
  | cons e t ih =>
    intro h
    by_cases he : e.1 = k
    · simp [kvLookup, he]
    · simp only [List.map_cons, if_neg he]
      rw [List.any_cons] at h
      rcases (Bool.or_eq_true _ _).mp h with h1 | h1
      · exact absurd (of_decide_eq_true h1) he
      · simp [kvLookup, he, ih h1]

theorem kvLookup_append_right {k : String} {v : String × Option Nat} :
    ∀ st : KVState, st.any (fun e => e.1 = k) = false →
      kvLookup (st ++ [(k, v)]) k = some v := by
  intro st
  induction st with
  | nil => simp [kvLookup]
  | cons e t ih =>
    intro h
    rw [List.any_cons] at h
    rw [Bool.or_eq_false_iff] at h
    have he : ¬ e.1 = k := of_decide_eq_false h.1
    simp [kvLookup, he, ih h.2]

theorem kvLookup_upsert (st : KVState) (k : String) (v : String × Option Nat) :
    kvLookup (kvUpsert st k v) k = some v := by
  unfold kvUpsert
  split
  · next h => exact kvLookup_map_upd st h
  · next h => exact kvLookup_append_right st (Bool.not_eq_true _ |>.mp h)

/-- C4: the in-memory Cache Store.  `get` is absent both for never-set keys
and for expired ones; an expired entry is deleted by the very `get` that
observes it; an entry set with a (positive) TTL of `t` seconds is absent to
any `get` more than `t` seconds later; and `set` without a TTL stores the
value with no expiry, so any later `get` returns it until it is
overwritten. -/
theorem C4_memory_kv_ttl :
    (∀ (now : Nat) (st : KVState) k, kvLookup st k = none → memGet now st k = (none, st))
    ∧ (∀ (now : Nat) (st : KVState) k v x, kvLookup st k = some (v, some x) → x ≠ 0 →
        now > x → memGet now st k = (none, kvErase st k))
    ∧ (∀ (st : KVState) k v t now1 now2, 0 < t → now1 + t * 1000 < now2 →
        (memGet now2 (memSet now1 st k v (some t)) k).1 = none)
    ∧ (∀ (st : KVState) k v now1 now2,
        (memGet now2 (memSet now1 st k v none) k).1 = some v) := by
  refine ⟨?_, ?_, ?_, ?_⟩
  · intro now st k h
    simp [memGet, h]
  · intro now st k v x h hx hnow
    simp [memGet, h, hx, hnow]
  · intro st k v t now1 now2 ht hnow
    cases t with
    | zero => omega
    | succ u =>
      have hl := kvLookup_upsert st k (v, some (now1 + (u + 1) * 1000))
      have hc1 : now1 + (u + 1) * 1000 ≠ 0 := by omega
      simp [memGet, memSet, hl, hc1, hnow]
  · intro st k v now1 now2
    have hl := kvLookup_upsert st k ((v, none) : String × Option Nat)
    simp [memGet, memSet, hl]

/-- C10: a TTL of zero means "never expires": the in-memory `set` stores no
expiry at all (a falsy `ttlSeconds`), so any later `get` still returns the
value, and the external-backend wrapper issues a plain `SET` with no
expiration option. -/
theorem C10_zero_ttl_never_expires :
    (∀ (st : KVState) k v now1 now2,
        memGet now2 (memSet now1 st k v (some 0)) k
          = (some v, memSet now1 st k v (some 0)))
    ∧ (∀ k v, redisSetCmd k v (some 0) = .setPlain k v) := by
  constructor
  · intro st k v now1 now2
    have hl := kvLookup_upsert st k ((v, none) : String × Option Nat)
    simp [memGet, memSet, hl]
  · intro k v
    rfl

theorem C10_witness :
    memGet 99999999 (memSet 5 [] "k" "v" (some 0)) "k"
      = (some "v", memSet 5 [] "k" "v" (some 0))
    ∧ redisSetCmd "k" "v" (some 0) = .setPlain "k" "v" :=
  ⟨C10_zero_ttl_never_expires.1 [] "k" "v" 5 99999999, C10_zero_ttl_never_expires.2 "k" "v"⟩



/-! ### HTTP executor: cache exclusion and body rule -/

theorem objUpsert_keys {acc : List (String × String)} {k : String} (k' v' : String)
    (h : k ∈ acc.map Prod.fst) : k ∈ (objUpsert acc k' v').map Prod.fst := by
  unfold objUpsert
  split
  · obtain ⟨p, hp, hpk⟩ := List.mem_map.mp h
    apply List.mem_map.mpr
    by_cases he : p.1 = k'
    · exact ⟨(k', v'), List.mem_map.mpr ⟨p, hp, by simp [he]⟩, by simp [← hpk, he]⟩
    · exact ⟨p, List.mem_map.mpr ⟨p, hp, by simp [he]⟩, hpk⟩
  · simp [h]

theorem objUpsert_key_self (acc : List (String × String)) (k v : String) :
    k ∈ (objUpsert acc k v).map Prod.fst := by
  unfold objUpsert
  split
  · next h =>
    obtain ⟨p, hp, hpk⟩ := List.any_eq_true.mp h
    apply List.mem_map.mpr
    exact ⟨(k, v), List.mem_map.mpr ⟨p, hp, by simp [of_decide_eq_true hpk]⟩, rfl⟩
  · simp

theorem foldl_objUpsert_keys :
    ∀ (l : List (String × String)) (acc : List (String × String)) (k : String),
      (k ∈ acc.map Prod.fst ∨ k ∈ l.map Prod.fst) →
      k ∈ (l.foldl (fun ac p => objUpsert ac p.1 p.2) acc).map Prod.fst := by
  intro l
  induction l with
  | nil =>
    intro acc k h
    rcases h with h | h
    · exact h
    · simp at h
  | cons p t ih =>
    intro acc k h
    simp only [List.foldl_cons]
    apply ih
    rcases h with h | h
    · exact Or.inl (objUpsert_keys p.1 p.2 h)
    · rcases List.mem_map.mp h with ⟨q, hq, hqk⟩
      rcases List.mem_cons.mp hq with hq1 | hq1
      · subst hq1
        exact Or.inl (hqk ▸ objUpsert_key_self acc q.1 q.2)
      · exact Or.inr (List.mem_map.mpr ⟨q, hq1, hqk⟩)

theorem hasAuth_of_header {a : HttpArgs} {k v : String} (hm : (k, v) ∈ a.headers)
    (hk : lowerStr k = "authorization") : hasAuthOf a = true := by
  have hkm : k ∈ (fetchHeadersOf a).map Prod.fst := by
    apply foldl_objUpsert_keys
    right
    exact List.mem_map.mpr ⟨(k, v), hm, rfl⟩
  obtain ⟨p, hp, hpk⟩ := List.mem_map.mp hkm
  unfold hasAuthOf
  apply List.any_eq_true.mpr
  exact ⟨p, hp, decide_eq_true (by rw [hpk, hk])⟩

/-- C1: the cache is touched only by cacheable executions.  A request whose
caller headers contain an `Authorization` name in any casing is not
cacheable; neither is any request whose uppercased method is
POST/PUT/PATCH/DELETE (or anything other than GET); and every non-cacheable
execution with a working transport performs exactly one network call, reads
and writes nothing in the cache, leaves the cache state untouched, and
returns an envelope with `fromCache = false`. -/
theorem C1_cache_exclusion :
    (∀ (a : HttpArgs) (k v : String), (k, v) ∈ a.headers → lowerStr k = "authorization" →
        canCacheOf a = false)
    ∧ (∀ a : HttpArgs,
        upperMethodOf a = "POST" ∨ upperMethodOf a = "PUT" ∨ upperMethodOf a = "PATCH" ∨
          upperMethodOf a = "DELETE" → canCacheOf a = false)
    ∧ (∀ (a : HttpArgs) (env : HttpEnv) (st : KVState) (nr : NetResp),
        a.url ≠ "" → a.method ≠ "" → env.net = .ok nr → canCacheOf a = false →
        httpRequest a env st
          = .ok { resp := respFromNet nr, kv := st, netCalls := 1, sent := [buildInit a],
                  cacheReads := [], cacheWrites := [] })
    ∧ (∀ nr : NetResp, (respFromNet nr).fromCache = false) := by
  refine ⟨?_, ?_, ?_, ?_⟩
  · intro a k v hm hk
    unfold canCacheOf
    rw [hasAuth_of_header hm hk]
    simp
  · intro a hmeth
    unfold canCacheOf
    rcases hmeth with h | h | h | h <;> simp [h]
  · intro a env st nr hu hm hnet hcc
    unfold httpRequest
    rw [if_neg hu, if_neg hm]
    simp only [hcc, Bool.false_eq_true, if_false, hnet]
  · intro nr
    rfl


/-- C9: a body is attached to the outgoing `RequestInit` if and only if the
uppercased method is POST, PUT or PATCH and `data` is neither `undefined` nor
`null`; a string body passes through verbatim, any other value is
JSON-encoded; for every other method no body is attached regardless of
`data`. -/
theorem C9_body_transmission :
    (∀ a : HttpArgs, (buildInit a).body = initBodyOf a)
    ∧ (∀ a : HttpArgs, initBodyOf a ≠ none ↔
        bodyAllowed (upperMethodOf a) = true ∧ a.data ≠ none ∧ a.data ≠ some .jnull)
    ∧ (∀ (a : HttpArgs) (s : String), bodyAllowed (upperMethodOf a) = true →
        a.data = some (.jstr s) → initBodyOf a = some s)
    ∧ (∀ (a : HttpArgs) (j : Json), bodyAllowed (upperMethodOf a) = true →
        a.data = some j → (∀ s, j ≠ .jstr s) → j ≠ .jnull →
        initBodyOf a = some (stringify j))
    ∧ (∀ a : HttpArgs, bodyAllowed (upperMethodOf a) = false → initBodyOf a = none) := by
  refine ⟨fun a => rfl, ?_, ?_, ?_, ?_⟩
  · intro a
    unfold initBodyOf
    constructor
    · intro h
      by_cases hb : bodyAllowed (upperMethodOf a) = true
      · refine ⟨hb, ?_, ?_⟩ <;>
          (intro hd; rw [if_pos hb, hd] at h; simp at h)
      · rw [if_neg hb] at h
        exact absurd rfl h
    · rintro ⟨hb, hd1, hd2⟩
      rw [if_pos hb]
      match hda : a.data with
      | none => exact absurd hda hd1
      | some .jnull => exact absurd hda hd2
      | some (.jbool b) => simp
      | some (.jnum i) => simp
      | some (.jstr s) => simp
      | some (.jarr xs) => simp
      | some (.jobj fs) => simp
  · intro a s hb hd
    unfold initBodyOf
    rw [if_pos hb, hd]
  · intro a j hb hd hs hn
    unfold initBodyOf
    rw [if_pos hb, hd]
    match j, hs, hn with
    | .jbool b, _, _ => rfl
    | .jnum i, _, _ => rfl
    | .jarr xs, _, _ => rfl
    | .jobj fs, _, _ => rfl
    | .jstr s, hs, _ => exact absurd rfl (hs s)
    | .jnull, _, hn => exact absurd rfl hn
  · intro a hb
    unfold initBodyOf
    rw [if_neg (by simp [hb])]


theorem httpRequest_miss (a : HttpArgs) (env : HttpEnv) (st st1 : KVState) (nr : NetResp)
    (hu : a.url ≠ "") (hm : a.method ≠ "") (hcc : canCacheOf a = true)
    (hnet : env.net = .ok nr)
    (hget : memGet env.now st (fingerprintOf a) = (none, st1)) :
    httpRequest a env st = .ok
      { resp := respFromNet nr,
        kv := memSet (env.now + nr.elapsedMs) st1 (fingerprintOf a)
                (stringify (encodeResp (respFromNet nr))) (some (env.ttlCfg.getD 1200)),
        netCalls := 1, sent := [buildInit a], cacheReads := [fingerprintOf a],
        cacheWrites := [(fingerprintOf a, stringify (encodeResp (respFromNet nr)),
                         env.ttlCfg.getD 1200)] } := by
  unfold httpRequest
  rw [if_neg hu, if_neg hm]
  simp only [hcc, if_true, hget, hnet]

theorem httpRequest_hit (a : HttpArgs) (env : HttpEnv) (st st1 : KVState) (s : String)
    (j : Json) (r : ResponseData)
    (hu : a.url ≠ "") (hm : a.method ≠ "") (hcc : canCacheOf a = true)
    (hget : memGet env.now st (fingerprintOf a) = (some s, st1)) (hs : s ≠ "")
    (hparse : jsonParse s = some j) (hdec : decodeResp j = some r) :
    httpRequest a env st = .ok
      { resp := { r with fromCache := true }, kv := st1, netCalls := 0, sent := [],
        cacheReads := [fingerprintOf a], cacheWrites := [] } := by
  unfold httpRequest
  rw [if_neg hu, if_neg hm]
  simp only [hcc, if_true, hget, hs, hparse, hdec]
  simp [hs]

theorem httpRequest_badentry (a : HttpArgs) (env : HttpEnv) (st st1 : KVState) (s : String)
    (nr : NetResp)
    (hu : a.url ≠ "") (hm : a.method ≠ "") (hcc : canCacheOf a = true)
    (hnet : env.net = .ok nr)
    (hget : memGet env.now st (fingerprintOf a) = (some s, st1)) (hs : s ≠ "")
    (hparse : jsonParse s = none) :
    httpRequest a env st = .ok
      { resp := respFromNet nr,
        kv := memSet (env.now + nr.elapsedMs) st1 (fingerprintOf a)
                (stringify (encodeResp (respFromNet nr))) (some (env.ttlCfg.getD 1200)),
        netCalls := 1, sent := [buildInit a], cacheReads := [fingerprintOf a],
        cacheWrites := [(fingerprintOf a, stringify (encodeResp (respFromNet nr)),
                         env.ttlCfg.getD 1200)] } := by
  unfold httpRequest
  rw [if_neg hu, if_neg hm]
  simp only [hcc, if_true, hget, hparse, hnet]
  simp [hs]


/-- C3: cache round-trip.  Executing the same cacheable request twice against
the in-memory cache — starting from a state where the key is absent, with the
second execution within the TTL — performs a network call only on the first
execution; the second returns the first envelope verbatim except that
`fromCache` is `true`.  And when the stored entry fails to parse as JSON, the
execution falls through to a fresh network call and still returns `.ok`. -/
theorem C3_cache_roundtrip :
    (∀ (a : HttpArgs) (env1 env2 : HttpEnv) (st0 : KVState) (nr1 : NetResp),
        a.url ≠ "" → a.method ≠ "" → canCacheOf a = true →
        env1.net = .ok nr1 →
        kvLookup st0 (fingerprintOf a) = none →
        env2.now ≤ env1.now + nr1.elapsedMs + (env1.ttlCfg.getD 1200) * 1000 →
        ∃ out1 out2,
          httpRequest a env1 st0 = .ok out1 ∧
          httpRequest a env2 out1.kv = .ok out2 ∧
          out1.netCalls = 1 ∧ out1.resp.fromCache = false ∧
          out2.netCalls = 0 ∧ out2.sent = [] ∧
          out2.resp = { out1.resp with fromCache := true })
    ∧ (∀ (a : HttpArgs) (env : HttpEnv) (st st1 : KVState) (nr : NetResp) (s : String),
        a.url ≠ "" → a.method ≠ "" → canCacheOf a = true → env.net = .ok nr →
        memGet env.now st (fingerprintOf a) = (some s, st1) → s ≠ "" →
        jsonParse s = none →
        ∃ out, httpRequest a env st = .ok out ∧ out.netCalls = 1 ∧
          out.resp.fromCache = false) := by
  constructor
  · intro a env1 env2 st0 nr1 hu hm hcc hnet1 hlk0 httl
    have hget1 : memGet env1.now st0 (fingerprintOf a) = (none, st0) := by
      simp [memGet, hlk0]
    have h1 := httpRequest_miss a env1 st0 st0 nr1 hu hm hcc hnet1 hget1
    set res1 := respFromNet nr1 with hres1
    set sVal := stringify (encodeResp res1) with hsval
    set ttl := env1.ttlCfg.getD 1200 with httldef
    set setT := env1.now + nr1.elapsedMs with hsetT
    set kv1 := memSet setT st0 (fingerprintOf a) sVal (some ttl) with hkv1
    have hlk1 : kvLookup kv1 (fingerprintOf a)
        = some (sVal, if ttl ≠ 0 then some (setT + ttl * 1000) else none) := by
      rw [hkv1]
      unfold memSet
      exact kvLookup_upsert st0 (fingerprintOf a) _
    have hget2 : memGet env2.now kv1 (fingerprintOf a) = (some sVal, kv1) := by
      unfold memGet
      rw [hlk1]
      cases hzero : ttl with
      | zero => simp
      | succ u =>
        have hble : ¬ (setT + (u + 1) * 1000 < env2.now) := by
          rw [hzero] at httl
          omega
        simp [hble]
    have h2 := httpRequest_hit a env2 kv1 kv1 sVal (encodeResp res1)
      { res1 with fromCache := false } hu hm hcc hget2 (stringify_ne_empty _)
      (jsonParse_stringify _) (decodeResp_encodeResp res1)
    exact ⟨_, _, h1, h2, rfl, rfl, rfl, rfl, rfl⟩
  · intro a env st st1 nr s hu hm hcc hnet hget hs hparse
    exact ⟨_, httpRequest_badentry a env st st1 s nr hu hm hcc hnet hget hs hparse,
      rfl, rfl⟩


/-! ### Comparator order properties -/

theorem natListCmp_eq_iff : ∀ a b : List Nat, natListCmp a b = .eq ↔ a = b := by
  intro a
  induction a with
  | nil => intro b; cases b <;> simp [natListCmp]
  | cons x t ih =>
    intro b
    cases b with
    | nil => simp [natListCmp]
    | cons y u =>
      rw [natListCmp]
      cases hxy : compare x y with
      | lt =>
        rw [Nat.compare_eq_lt] at hxy
        simp only [List.cons.injEq]
        constructor
        · intro h; exact absurd h (by simp)
        · rintro ⟨h1, h2⟩; omega
      | eq =>
        rw [Nat.compare_eq_eq] at hxy
        subst hxy
        simp only [List.cons.injEq, true_and]
        exact ih u
      | gt =>
        rw [Nat.compare_eq_gt] at hxy
        simp only [List.cons.injEq]
        constructor
        · intro h; exact absurd h (by simp)
        · rintro ⟨h1, h2⟩; omega

theorem natListCmp_swap : ∀ a b : List Nat, natListCmp b a = (natListCmp a b).swap := by
  intro a
  induction a with
  | nil => intro b; cases b <;> simp [natListCmp, Ordering.swap]
  | cons x t ih =>
    intro b
    cases b with
    | nil => simp [natListCmp, Ordering.swap]
    | cons y u =>
      rw [natListCmp, natListCmp]
      cases hxy : compare x y with
      | lt =>
        have hyx : compare y x = .gt := Nat.compare_eq_gt.mpr (Nat.compare_eq_lt.mp hxy)
        rw [hyx]
        rfl
      | eq =>
        have hxy' := Nat.compare_eq_eq.mp hxy
        subst hxy'
        rw [hxy]
        exact ih u
      | gt =>
        have hyx : compare y x = .lt := Nat.compare_eq_lt.mpr (Nat.compare_eq_gt.mp hxy)
        rw [hyx]
        rfl

theorem natListCmp_le_trans : ∀ a b c : List Nat,
    natListCmp a b ≠ .gt → natListCmp b c ≠ .gt → natListCmp a c ≠ .gt := by
  intro a
  induction a with
  | nil =>
    intro b c _ _
    cases c <;> simp [natListCmp]
  | cons x t ih =>
    intro b c hab hbc
    cases b with
    | nil => rw [natListCmp] at hab; exact absurd rfl hab
    | cons y u =>
      cases c with
      | nil => rw [natListCmp] at hbc; exact absurd rfl hbc
      | cons z w =>
        rw [natListCmp] at hab hbc ⊢
        cases hxy : compare x y with
        | gt => rw [hxy] at hab; exact absurd rfl hab
        | lt =>
          have h1 := Nat.compare_eq_lt.mp hxy
          cases hyz : compare y z with
          | gt => rw [hyz] at hbc; exact absurd rfl hbc
          | lt =>
            have h2 := Nat.compare_eq_lt.mp hyz
            rw [Nat.compare_eq_lt.mpr (by omega : x < z)]
            simp
          | eq =>
            have h2 := Nat.compare_eq_eq.mp hyz
            rw [Nat.compare_eq_lt.mpr (by omega : x < z)]
            simp
        | eq =>
          have h1 := Nat.compare_eq_eq.mp hxy
          rw [hxy] at hab
          cases hyz : compare y z with
          | gt => rw [hyz] at hbc; exact absurd rfl hbc
          | lt =>
            have h2 := Nat.compare_eq_lt.mp hyz
            rw [Nat.compare_eq_lt.mpr (by omega : x < z)]
            simp
          | eq =>
            have h2 := Nat.compare_eq_eq.mp hyz
            rw [hyz] at hbc
            rw [Nat.compare_eq_eq.mpr (by omega : x = z)]
            exact ih u w hab hbc

theorem natListCmp_total (a b : List Nat) :
    natListCmp a b ≠ .gt ∨ natListCmp b a ≠ .gt := by
  cases h : natListCmp a b with
  | lt => left; simp [h]
  | eq => left; simp [h]
  | gt =>
    right
    rw [natListCmp_swap, h]
    simp [Ordering.swap]

theorem natListCmp_eq_of_le_ge {a b : List Nat} (hab : natListCmp a b ≠ .gt)
    (hba : natListCmp b a ≠ .gt) : a = b := by
  rw [natListCmp_swap] at hba
  rw [← natListCmp_eq_iff]
  cases h : natListCmp a b with
  | eq => rfl
  | gt => exact absurd h hab
  | lt =>
    rw [h] at hba
    exact absurd rfl hba

theorem lowVal_pos (c : Char) : 1 ≤ lowVal c := by
  unfold lowVal
  split <;> omega

theorem data_eq_of_low_case : ∀ (l1 l2 : List Char),
    l1.map lowVal = l2.map lowVal → l1.map caseVal = l2.map caseVal → l1 = l2 := by
  intro l1
  induction l1 with
  | nil => intro l2 h1 _; cases l2 <;> simp_all
  | cons c t ih =>
    intro l2 h1 h2
    cases l2 with
    | nil => simp at h1
    | cons d u =>
      simp only [List.map_cons, List.cons.injEq] at h1 h2
      have hc : c = d := by
        apply eq_of_lower_case
        · apply cp_inj
          have e1 := h1.1
          rw [lowVal_eq, lowVal_eq] at e1
          omega
        · exact h2.1
      exact hc ▸ congrArg (c :: ·) (ih u h1.2 h2.2)

theorem locKey_inj {a b : String} (h : locKey a = locKey b) : a = b := by
  unfold locKey at h
  have hlen : a.data.length = b.data.length := by
    have hx := congrArg List.length h
    simp only [List.length_append, List.length_cons, List.length_map] at hx
    omega
  have hsp := List.append_inj h (by simp [hlen])
  obtain ⟨h1, h2⟩ := hsp
  injection h2 with _ h3
  have hd := data_eq_of_low_case a.data b.data h1 h3
  cases a
  cases b
  exact congrArg String.mk (by simpa using hd)

instance : IsTrans String locLe :=
  ⟨fun a b c => natListCmp_le_trans (locKey a) (locKey b) (locKey c)⟩

instance : IsTotal String locLe :=
  ⟨fun a b => natListCmp_total (locKey a) (locKey b)⟩

instance : IsAntisymm String locLe :=
  ⟨fun _ _ hab hba => locKey_inj (natListCmp_eq_of_le_ge hab hba)⟩

theorem rawKey_inj {a b : String} (h : rawKey a = rawKey b) : a = b := by
  unfold rawKey at h
  have hd : a.data = b.data := by
    have hlen : a.data.length = b.data.length := by
      have hx := congrArg List.length h
      simpa using hx
    apply List.ext_getElem hlen
    intro i hi1 hi2
    have hx := congrArg (fun l => l[i]?) h
    simp only [List.getElem?_map, List.getElem?_eq_getElem, hi1, hi2, Option.map_some'] at hx
    exact cp_inj (Option.some.inj hx)
  cases a
  cases b
  exact congrArg String.mk (by simpa using hd)

theorem shift1_inj {a b : List Nat} (h : shift1 a = shift1 b) : a = b :=
  List.map_injective_iff.mpr (fun x y hxy => Nat.add_right_cancel hxy) h

theorem sep_split : ∀ (x y u v : List Nat), (∀ n ∈ x, 1 ≤ n) → (∀ n ∈ y, 1 ≤ n) →
    x ++ 0 :: u = y ++ 0 :: v → x = y ∧ u = v := by
  intro x
  induction x with
  | nil =>
    intro y u v _ hy h
    cases y with
    | nil => simpa using h
    | cons c y' =>
      simp only [List.nil_append, List.cons_append, List.cons.injEq] at h
      have := hy c (by simp)
      omega
  | cons a x' ih =>
    intro y u v hx hy h
    cases y with
    | nil =>
      simp only [List.cons_append, List.nil_append, List.cons.injEq] at h
      have := hx a (by simp)
      omega
    | cons c y' =>
      simp only [List.cons_append, List.cons.injEq] at h
      obtain ⟨h1, h2⟩ := h
      obtain ⟨h3, h4⟩ := ih y' u v (fun n hn => hx n (by simp [hn]))
        (fun n hn => hy n (by simp [hn])) h2
      exact ⟨by rw [h1, h3], h4⟩

theorem primKey_pos (s : String) : ∀ n ∈ primKey s, 1 ≤ n := by
  intro n hn
  obtain ⟨c, _, hc⟩ := List.mem_map.mp hn
  rw [← hc]
  exact lowVal_pos c

theorem shift1_pos (l : List Nat) : ∀ n ∈ shift1 l, 1 ≤ n := by
  intro n hn
  obtain ⟨m, _, hm⟩ := List.mem_map.mp hn
  omega

theorem pairKey_inj {p q : String × String} (h : pairKey p = pairKey q) : p = q := by
  unfold pairKey at h
  obtain ⟨hprim, hrest⟩ := sep_split _ _ _ _ (primKey_pos p.1) (primKey_pos q.1) h
  obtain ⟨hraw1, hraw2⟩ := sep_split _ _ _ _ (shift1_pos (rawKey p.1))
    (shift1_pos (rawKey q.1)) hrest
  have e1 : p.1 = q.1 := rawKey_inj (shift1_inj hraw1)
  have e2 : p.2 = q.2 := rawKey_inj (shift1_inj hraw2)
  exact Prod.ext e1 e2

instance : IsTrans (String × String) pairLe :=
  ⟨fun p q r => natListCmp_le_trans (pairKey p) (pairKey q) (pairKey r)⟩

instance : IsTotal (String × String) pairLe :=
  ⟨fun p q => natListCmp_total (pairKey p) (pairKey q)⟩

instance : IsAntisymm (String × String) pairLe :=
  ⟨fun _ _ hab hba => pairKey_inj (natListCmp_eq_of_le_ge hab hba)⟩


/-! ### JS object semantics: lookup/upsert laws -/

theorem objLookup_eq_none {l : List (String × String)} {k : String}
    (h : k ∉ l.map Prod.fst) : objLookup l k = none := by
  induction l with
  | nil => rfl
  | cons p t ih =>
    simp only [List.map_cons, List.mem_cons] at h
    push_neg at h
    rw [objLookup, if_neg (fun hc : p.1 = k => h.1 hc.symm)]
    exact ih h.2

theorem objUpsert_cons (p : String × String) (t : List (String × String)) (k' v' : String) :
    objUpsert (p :: t) k' v'
      = if p.1 = k' then (k', v') :: t.map (fun q => if q.1 = k' then (k', v') else q)
        else p :: objUpsert t k' v' := by
  unfold objUpsert
  by_cases hp : p.1 = k'
  · simp [List.any_cons, hp]
  · by_cases ht : (t.any fun q => q.1 = k') = true
    · simp [List.any_cons, hp, ht]
    · have htf := (Bool.not_eq_true _).mp ht
      have hor : (decide (p.1 = k') || t.any fun q => decide (q.1 = k')) = false := by
        rw [Bool.or_eq_false_iff]
        exact ⟨decide_eq_false hp, htf⟩
      rw [List.any_cons, hor]
      simp only [Bool.false_eq_true, if_false, List.cons_append, if_neg hp]
      rw [if_neg ht]

theorem objLookup_map_ne {t : List (String × String)} {k k' v' : String} (hne : k ≠ k') :
    objLookup (t.map (fun q => if q.1 = k' then (k', v') else q)) k = objLookup t k := by
  induction t with
  | nil => rfl
  | cons p u ih =>
    by_cases hp : p.1 = k'
    · rw [List.map_cons, if_pos hp]
      simp only [objLookup]
      rw [if_neg (fun hc : (k', v').1 = k => hne (Eq.symm hc)),
        if_neg (fun hc : p.1 = k => hne (hc.symm.trans hp))]
      exact ih
    · rw [List.map_cons, if_neg hp]
      simp only [objLookup]
      by_cases hk : p.1 = k
      · rw [if_pos hk, if_pos hk]
      · rw [if_neg hk, if_neg hk]
        exact ih

theorem objLookup_upsert (acc : List (String × String)) (k' v' k : String) :
    objLookup (objUpsert acc k' v') k = if k = k' then some v' else objLookup acc k := by
  induction acc with
  | nil =>
    by_cases hk : k = k'
    · simp [objUpsert, objLookup, hk]
    · simp [objUpsert, objLookup, hk, show ¬ (k' = k) from fun hc => hk hc.symm]
  | cons p t ih =>
    rw [objUpsert_cons]
    by_cases hp : p.1 = k'
    · rw [if_pos hp]
      by_cases hk : k = k'
      · simp [objLookup, hk]
      · simp only [objLookup]
        rw [if_neg (fun hc : (k', v').1 = k => hk (Eq.symm hc)), objLookup_map_ne hk,
          if_neg hk, if_neg (fun hc : p.1 = k => hk (hc.symm.trans hp))]
    · rw [if_neg hp]
      simp only [objLookup]
      by_cases hpk : p.1 = k
      · rw [if_pos hpk, if_pos hpk, if_neg (fun hc : k = k' => hp (hpk.trans hc))]
      · rw [if_neg hpk, if_neg hpk, ih]


theorem objLookup_foldl (l : List (String × String)) :
    ∀ (acc : List (String × String)) (k : String), (l.map Prod.fst).Nodup →
    objLookup (l.foldl (fun ac p => objUpsert ac p.1 p.2) acc) k
      = match objLookup l k with
        | some v => some v
        | none => objLookup acc k := by
  induction l with
  | nil => intro acc k _; rfl
  | cons p t ih =>
    intro acc k hn
    rw [List.map_cons, List.nodup_cons] at hn
    rw [List.foldl_cons, ih _ k hn.2]
    by_cases hk : k = p.1
    · have hnone : objLookup t k = none := objLookup_eq_none (hk ▸ hn.1)
      rw [hnone, objLookup_upsert, if_pos hk]
      simp only [objLookup]
      rw [if_pos hk.symm]
    · simp only [objLookup]
      rw [if_neg (fun hc : p.1 = k => hk hc.symm)]
      cases objLookup t k with
      | some v => rfl
      | none => rw [objLookup_upsert, if_neg hk]

theorem objUpsert_map_fst (acc : List (String × String)) (k v : String) :
    (objUpsert acc k v).map Prod.fst
      = if k ∈ acc.map Prod.fst then acc.map Prod.fst else acc.map Prod.fst ++ [k] := by
  unfold objUpsert
  by_cases hm : k ∈ acc.map Prod.fst
  · obtain ⟨p, hp, hpk⟩ := List.mem_map.mp hm
    rw [if_pos (List.any_eq_true.mpr ⟨p, hp, decide_eq_true hpk⟩), if_pos hm, List.map_map]
    apply List.map_congr_left
    intro q _
    by_cases hq : q.1 = k
    · simp [hq]
    · simp [hq]
  · rw [if_neg ?hneg, if_neg hm]
    · simp
    · case hneg =>
        intro hany
        obtain ⟨p, hp, hpk⟩ := List.any_eq_true.mp hany
        exact hm (List.mem_map.mpr ⟨p, hp, of_decide_eq_true hpk⟩)

theorem keys_foldl_upsert (l : List (String × String)) :
    ∀ acc : List (String × String), (l.map Prod.fst).Nodup →
    (l.foldl (fun ac p => objUpsert ac p.1 p.2) acc).map Prod.fst
      = acc.map Prod.fst
        ++ (l.map Prod.fst).filter (fun x => decide (x ∉ acc.map Prod.fst)) := by
  induction l with
  | nil => intro acc _; simp
  | cons p t ih =>
    intro acc hn
    rw [List.map_cons, List.nodup_cons] at hn
    rw [List.foldl_cons, ih _ hn.2, objUpsert_map_fst, List.map_cons]
    by_cases hm : p.1 ∈ acc.map Prod.fst
    · rw [if_pos hm, List.filter_cons_of_neg (by simpa using hm)]
    · rw [if_neg hm, List.filter_cons_of_pos (by simpa using hm)]
      have hfc : (t.map Prod.fst).filter
            (fun x => decide (x ∉ (acc.map Prod.fst ++ [p.1])))
          = (t.map Prod.fst).filter (fun x => decide (x ∉ acc.map Prod.fst)) := by
        apply List.filter_congr
        intro x hx
        have hxp : x ≠ p.1 := fun hc => hn.1 (hc ▸ hx)
        simp [List.mem_append, hxp]
      rw [hfc]
      simp

theorem objLookup_perm {l1 l2 : List (String × String)} (hp : l1.Perm l2)
    (hn : (l1.map Prod.fst).Nodup) (k : String) : objLookup l1 k = objLookup l2 k := by
  induction hp with
  | nil => rfl
  | cons x h ih =>
    simp only [objLookup]
    by_cases hx : x.1 = k
    · rw [if_pos hx, if_pos hx]
    · rw [if_neg hx, if_neg hx]
      rw [List.map_cons, List.nodup_cons] at hn
      exact ih hn.2
  | swap x y l =>
    rw [List.map_cons, List.map_cons, List.nodup_cons, List.nodup_cons] at hn
    have hxy : y.1 ≠ x.1 := fun hc => hn.1 (by simp [hc])
    simp only [objLookup]
    by_cases hy : y.1 = k
    · rw [if_pos hy, if_neg (fun hc : x.1 = k => hxy (hy.trans hc.symm)), if_pos hy]
    · by_cases hx : x.1 = k
      · rw [if_neg hy, if_pos hx, if_pos hx]
      · rw [if_neg hy, if_neg hx, if_neg hx, if_neg hy]
  | trans h1 h2 ih1 ih2 =>
    rw [ih1 hn, ih2 ((hn.perm (h1.map Prod.fst)))]

theorem foldl_upsert_congr {f1 f2 : List (String × String)}
    (hlk : ∀ k, objLookup f1 k = objLookup f2 k) :
    ∀ (ks : List String) (acc : List (String × String)),
    ks.foldl (fun ac k => objUpsert ac (lowerStr k) ((objLookup f1 k).getD "")) acc
      = ks.foldl (fun ac k => objUpsert ac (lowerStr k) ((objLookup f2 k).getD "")) acc := by
  intro ks
  induction ks with
  | nil => intro acc; rfl
  | cons x t ih =>
    intro acc
    rw [List.foldl_cons, List.foldl_cons, hlk x, ih]


theorem canon_peel {a1 a2 : HttpArgs} (h : canonOf a1 = canonOf a2) :
    upperMethodOf a1 = upperMethodOf a2 ∧ a1.url = a2.url := by
  simp only [canonOf, render, renderFields, show ("m" : String).data = ['m'] from rfl,
    show ("url" : String).data = ['u', 'r', 'l'] from rfl,
    show escL ['m'] = ['m'] from rfl,
    show escL ['u', 'r', 'l'] = ['u', 'r', 'l'] from rfl,
    List.append_assoc, List.cons_append, List.nil_append, List.singleton_append,
    List.cons.injEq, true_and] at h
  obtain ⟨hm, hrest⟩ := escL_decode _ _ _ _ h
  have hm' : upperMethodOf a1 = upperMethodOf a2 := by
    have d1 := congrArg String.mk hm
    simpa using d1
  simp only [List.cons.injEq, true_and] at hrest
  obtain ⟨hu, _⟩ := escL_decode _ _ _ _ hrest
  have hu' : a1.url = a2.url := by
    have d1 := congrArg String.mk hu
    simpa using d1
  exact ⟨hm', hu'⟩


theorem fetchHeaders_keys_perm {h1 h2 : List (String × String)} (hp : h1.Perm h2)
    (hn : (h1.map Prod.fst).Nodup) :
    ((h1.foldl (fun ac p => objUpsert ac p.1 p.2)
        [("Content-Type", "application/json")]).map Prod.fst).Perm
      ((h2.foldl (fun ac p => objUpsert ac p.1 p.2)
        [("Content-Type", "application/json")]).map Prod.fst) := by
  rw [keys_foldl_upsert h1 _ hn, keys_foldl_upsert h2 _ ((hp.map Prod.fst).nodup_iff.mp hn)]
  exact List.Perm.append_left _ ((hp.map Prod.fst).filter _)

theorem sortedHeaderObj_perm {h1 h2 : List (String × String)} (hp : h1.Perm h2)
    (hn : (h1.map Prod.fst).Nodup) :
    sortedHeaderObj (h1.foldl (fun ac p => objUpsert ac p.1 p.2)
        [("Content-Type", "application/json")])
      = sortedHeaderObj (h2.foldl (fun ac p => objUpsert ac p.1 p.2)
        [("Content-Type", "application/json")]) := by
  have hkeys := fetchHeaders_keys_perm hp hn
  have hsorted : sortedKeysOf (h1.foldl (fun ac p => objUpsert ac p.1 p.2)
        [("Content-Type", "application/json")])
      = sortedKeysOf (h2.foldl (fun ac p => objUpsert ac p.1 p.2)
        [("Content-Type", "application/json")]) := by
    exact List.eq_of_perm_of_sorted
      (((List.perm_insertionSort locLe _).trans hkeys).trans
        (List.perm_insertionSort locLe _).symm)
      (List.sorted_insertionSort locLe _)
      (List.sorted_insertionSort locLe _)
  have hlk : ∀ k, objLookup (h1.foldl (fun ac p => objUpsert ac p.1 p.2)
        [("Content-Type", "application/json")]) k
      = objLookup (h2.foldl (fun ac p => objUpsert ac p.1 p.2)
        [("Content-Type", "application/json")]) k := by
    intro k
    rw [objLookup_foldl h1 _ k hn, objLookup_foldl h2 _ k ((hp.map Prod.fst).nodup_iff.mp hn),
      objLookup_perm hp hn k]
  unfold sortedHeaderObj
  rw [hsorted]
  exact foldl_upsert_congr hlk _ _


theorem natListCmp_append : ∀ (x y u v : List Nat), (∀ n ∈ x, 1 ≤ n) → (∀ n ∈ y, 1 ≤ n) →
    natListCmp (x ++ 0 :: u) (y ++ 0 :: v)
      = match natListCmp x y with
        | .eq => natListCmp u v
        | o => o := by
  intro x
  induction x with
  | nil =>
    intro y u v _ hy
    cases y with
    | nil =>
      simp only [List.nil_append, natListCmp]
      rw [Nat.compare_eq_eq.mpr rfl]
    | cons c y' =>
      have hc := hy c (by simp)
      simp only [List.nil_append, List.cons_append, natListCmp]
      rw [Nat.compare_eq_lt.mpr (by omega)]
  | cons a x' ih =>
    intro y u v hx hy
    cases y with
    | nil =>
      have ha := hx a (by simp)
      simp only [List.cons_append, List.nil_append, natListCmp]
      rw [Nat.compare_eq_gt.mpr (by omega)]
    | cons c y' =>
      simp only [List.cons_append, natListCmp]
      cases hac : compare a c with
      | lt => rfl
      | gt => rfl
      | eq =>
        exact ih y' u v (fun n hn => hx n (by simp [hn])) (fun n hn => hy n (by simp [hn]))

theorem lowerChar_idem (c : Char) : lowerChar (lowerChar c) = lowerChar c := by
  apply cp_inj
  rw [lowerChar_cp (lowerChar c), lowerChar_cp c]
  split_ifs <;> omega

theorem lowVal_lowerChar (c : Char) : lowVal (lowerChar c) = lowVal c := by
  rw [lowVal_eq, lowVal_eq, lowerChar_idem]

theorem lowerStr_idem (s : String) : lowerStr (lowerStr s) = lowerStr s := by
  unfold lowerStr
  apply congrArg String.mk
  rw [show (String.mk (s.data.map lowerChar)).data = s.data.map lowerChar from rfl,
    List.map_map]
  exact List.map_congr_left (fun c _ => lowerChar_idem c)

theorem primKey_lowerStr (s : String) : primKey (lowerStr s) = primKey s := by
  unfold primKey lowerStr
  rw [show (String.mk (s.data.map lowerChar)).data = s.data.map lowerChar from rfl,
    List.map_map]
  exact List.map_congr_left (fun c _ => lowVal_lowerChar c)

theorem primKey_eq_iff {a b : String} : primKey a = primKey b ↔ lowerStr a = lowerStr b := by
  constructor
  · intro h
    unfold primKey at h
    unfold lowerStr
    apply congrArg String.mk
    have hlen : a.data.length = b.data.length := by
      have := congrArg List.length h
      simpa using this
    apply List.ext_getElem (by simpa using hlen)
    intro i hi1 hi2
    simp only [List.getElem_map]
    have hx := congrArg (fun l => l[i]?) h
    simp only [List.getElem?_map, List.getElem?_eq_getElem, hlen, Option.map_some',
      (by simpa using hi1 : i < a.data.length), (by simpa using hi2 : i < b.data.length)] at hx
    have hv := Option.some.inj hx
    rw [lowVal_eq, lowVal_eq] at hv
    exact cp_inj (by omega)
  · intro h
    rw [← primKey_lowerStr a, ← primKey_lowerStr b, h]

theorem locCmp_decomp (a b : String) :
    locCmp a b
      = match natListCmp (primKey a) (primKey b) with
        | .eq => natListCmp (a.data.map caseVal) (b.data.map caseVal)
        | o => o := by
  unfold locCmp locKey
  exact natListCmp_append _ _ _ _ (primKey_pos a) (primKey_pos b)

theorem pairLe_of_locLe {k k' : String} {s s' : String} (hle : locLe k k')
    (hne : lowerStr k ≠ lowerStr k') :
    pairLe (lowerStr k, s) (lowerStr k', s') := by
  have hprim : natListCmp (primKey k) (primKey k') = .lt := by
    unfold locLe at hle
    rw [locCmp_decomp] at hle
    cases hc : natListCmp (primKey k) (primKey k') with
    | lt => rfl
    | eq => exact absurd (primKey_eq_iff.mp (natListCmp_eq_iff _ _ |>.mp hc)) hne
    | gt => rw [hc] at hle; exact absurd rfl hle
  unfold pairLe pairCmp pairKey
  rw [natListCmp_append _ _ _ _ (primKey_pos _) (primKey_pos _)]
  rw [primKey_lowerStr, primKey_lowerStr, hprim]
  simp


theorem objUpsert_no_key {acc : List (String × String)} {k : String}
    (h : ∀ q ∈ acc, q.1 ≠ k) (v : String) : objUpsert acc k v = acc ++ [(k, v)] := by
  have hc : acc.any (fun p => p.1 = k) = false := by
    rw [List.any_eq_false]
    intro p hp
    simpa using h p hp
  unfold objUpsert
  rw [hc]
  simp

theorem foldl_upsert_append : ∀ (l acc : List (String × String)),
    (∀ p ∈ l, ∀ q ∈ acc, q.1 ≠ p.1) → (l.map Prod.fst).Nodup →
    l.foldl (fun ac p => objUpsert ac p.1 p.2) acc = acc ++ l := by
  intro l
  induction l with
  | nil =>
    intro acc _ _
    simp
  | cons p t ih =>
    intro acc hd hn
    simp only [List.map_cons, List.nodup_cons] at hn
    simp only [List.foldl_cons]
    rw [objUpsert_no_key (fun q hq => hd p (List.mem_cons_self p t) q hq) p.2]
    have hd2 : ∀ r ∈ t, ∀ q ∈ acc ++ [p], q.1 ≠ r.1 := by
      intro r hr q hq
      rcases List.mem_append.mp hq with hq | hq
      · exact hd r (List.mem_cons_of_mem p hr) q hq
      · have hqp : q = p := by simpa using hq
        subst hqp
        intro he
        apply hn.1
        rw [he]
        exact List.mem_map_of_mem Prod.fst hr
    rw [ih (acc ++ [p]) hd2 hn.2, List.append_assoc]
    rfl

theorem objLookup_self : ∀ (l : List (String × String)), (l.map Prod.fst).Nodup →
    ∀ p ∈ l, objLookup l p.1 = some p.2 := by
  intro l
  induction l with
  | nil =>
    intro _ p hp
    simp at hp
  | cons q t ih =>
    intro hn p hp
    simp only [List.map_cons, List.nodup_cons] at hn
    rcases List.mem_cons.mp hp with hp | hp
    · subst hp
      simp [objLookup]
    · have hne : ¬ q.1 = p.1 := by
        intro he
        apply hn.1
        rw [he]
        exact List.mem_map_of_mem Prod.fst hp
      simp only [objLookup, if_neg hne]
      exact ih hn.2 p hp

theorem pairwise_and {α : Type} {R S : α → α → Prop} :
    ∀ {l : List α}, l.Pairwise R → l.Pairwise S → l.Pairwise (fun a b => R a b ∧ S a b) := by
  intro l
  induction l with
  | nil => intro _ _; exact .nil
  | cons a t ih =>
    intro h1 h2
    cases h1 with | cons h1a h1t =>
    cases h2 with | cons h2a h2t =>
    exact .cons (fun b hb => ⟨h1a b hb, h2a b hb⟩) (ih h1t h2t)

theorem foldl_keys_map (fh : List (String × String)) :
    ∀ (l : List String) (acc : List (String × String)),
    l.foldl (fun ac k => objUpsert ac (lowerStr k) ((objLookup fh k).getD "")) acc
      = (l.map (fun k => (lowerStr k, (objLookup fh k).getD ""))).foldl
          (fun ac p => objUpsert ac p.1 p.2) acc := by
  intro l
  induction l with
  | nil => intro acc; rfl
  | cons a t ih =>
    intro acc
    simp only [List.foldl_cons, List.map_cons]
    exact ih _


theorem sortedHeaderObj_canonical (fh : List (String × String))
    (hn : (fh.map (fun p => lowerStr p.1)).Nodup) :
    sortedHeaderObj fh
      = List.insertionSort pairLe (fh.map (fun p => (lowerStr p.1, p.2))) := by
  have hnf : (fh.map Prod.fst).Nodup := by
    have he : fh.map (fun p => lowerStr p.1) = (fh.map Prod.fst).map lowerStr := by
      rw [List.map_map]
      rfl
    rw [he] at hn
    exact List.Nodup.of_map _ hn
  have hperm : (sortedKeysOf fh).Perm (fh.map Prod.fst) := List.perm_insertionSort locLe _
  have hsl : (sortedKeysOf fh).Sorted locLe := List.sorted_insertionSort locLe _
  have hnl : ((sortedKeysOf fh).map lowerStr).Nodup := by
    have h2 : ((fh.map Prod.fst).map lowerStr).Nodup := by
      rw [List.map_map]
      exact hn
    exact ((hperm.map lowerStr).nodup_iff).mpr h2
  have hfold : sortedHeaderObj fh
      = (sortedKeysOf fh).map (fun k => (lowerStr k, (objLookup fh k).getD "")) := by
    unfold sortedHeaderObj
    rw [foldl_keys_map fh (sortedKeysOf fh) []]
    rw [foldl_upsert_append _ [] (by simp) ?nd]
    · simp
    case nd =>
      rw [List.map_map]
      exact hnl
  have hpm : ((sortedKeysOf fh).map (fun k => (lowerStr k, (objLookup fh k).getD ""))).Perm
      (fh.map (fun p => (lowerStr p.1, p.2))) := by
    have h1 := hperm.map (fun k => (lowerStr k, (objLookup fh k).getD ""))
    have h2 : (fh.map Prod.fst).map (fun k => (lowerStr k, (objLookup fh k).getD ""))
        = fh.map (fun p => (lowerStr p.1, p.2)) := by
      rw [List.map_map]
      refine List.map_congr_left (fun p hp => ?pv)
      show (lowerStr p.1, (objLookup fh p.1).getD "") = (lowerStr p.1, p.2)
      rw [objLookup_self fh hnf p hp]
      rfl
    rw [h2] at h1
    exact h1
  have hd : (sortedKeysOf fh).Pairwise (fun a b => lowerStr a ≠ lowerStr b) :=
    List.pairwise_map.mp hnl
  have hsorted : ((sortedKeysOf fh).map
      (fun k => (lowerStr k, (objLookup fh k).getD ""))).Sorted pairLe :=
    List.pairwise_map.mpr ((pairwise_and hsl hd).imp (fun h => pairLe_of_locLe h.1 h.2))
  rw [hfold]
  exact List.eq_of_perm_of_sorted
    (hpm.trans (List.perm_insertionSort pairLe _).symm)
    hsorted
    (List.sorted_insertionSort pairLe _)

theorem fetchHeaders_eq_cons (a : HttpArgs)
    (hn : (a.headers.map (fun p => lowerStr p.1)).Nodup)
    (hct : "content-type" ∉ a.headers.map (fun p => lowerStr p.1)) :
    fetchHeadersOf a = ("Content-Type", "application/json") :: a.headers := by
  unfold fetchHeadersOf
  rw [foldl_upsert_append a.headers [("Content-Type", "application/json")] ?hd ?hn2]
  · rfl
  case hd =>
    intro p hp q hq
    have hq' : q = ("Content-Type", "application/json") := by simpa using hq
    subst hq'
    intro he
    apply hct
    have hl : lowerStr p.1 = "content-type" := by
      rw [← he]
      decide
    exact List.mem_map.mpr ⟨p, hp, hl⟩
  case hn2 =>
    have he : a.headers.map (fun p => lowerStr p.1) = (a.headers.map Prod.fst).map lowerStr := by
      rw [List.map_map]
      rfl
    rw [he] at hn
    exact List.Nodup.of_map _ hn

theorem initBodyOf_congr {a1 a2 : HttpArgs} (hm : upperMethodOf a1 = upperMethodOf a2)
    (hd : a1.data = a2.data) : initBodyOf a1 = initBodyOf a2 := by
  unfold initBodyOf
  rw [hm, hd]

theorem fingerprint_congr {a1 a2 : HttpArgs} (hm : upperMethodOf a1 = upperMethodOf a2)
    (hu : a1.url = a2.url) (hd : a1.data = a2.data)
    (hs : sortedHeaderObj (fetchHeadersOf a1) = sortedHeaderObj (fetchHeadersOf a2)) :
    fingerprintOf a1 = fingerprintOf a2 := by
  have hc : canonOf a1 = canonOf a2 := by
    unfold canonOf
    rw [hm, hu, hs, initBodyOf_congr hm hd]
  unfold fingerprintOf
  rw [hc]

theorem canon_body_irrelevant (a : HttpArgs) (d : Option Json)
    (h : bodyAllowed (upperMethodOf a) = false) :
    canonOf { a with data := d } = canonOf a := by
  have h1 : upperMethodOf { a with data := d } = upperMethodOf a := rfl
  have h3 : initBodyOf { a with data := d } = initBodyOf a := by
    unfold initBodyOf
    rw [h1, h]
    simp
  unfold canonOf
  rw [h3]
  rfl


/-- C2 (amended): the cache-key fingerprint is deterministic and
header-normalizing. (a) Permuting the insertion order of the caller headers
(names distinct, as in a JS record) leaves the fingerprint unchanged.
(b) Re-casing header names (same names up to case, distinct after
lower-casing, none lower-casing to the reserved name content-type) leaves
the fingerprint unchanged. (c) The fingerprint is the namespace tag http:
followed by the hex SHA-256 digest of the canonical serialization.
(d) The header object inside the canonical serialization is the lower-cased
header list sorted by name. (e) Equal canonical strings force equal
uppercased methods and equal URLs. (f) The body slot of a GET request is
always the empty string, so the request data never affects a GET
fingerprint — contrary to the original claim, changing the body of a
cacheable request does not change its canonical string. -/
theorem C2_fingerprint :
    (∀ (u m : String) (d : Option Json) (l1 l2 : List (String × String)),
      l1.Perm l2 → (l1.map Prod.fst).Nodup →
      fingerprintOf ⟨u, m, l1, d⟩ = fingerprintOf ⟨u, m, l2, d⟩) ∧
    (∀ (u m : String) (d : Option Json) (l1 l2 : List (String × String)),
      l1.map (fun p => (lowerStr p.1, p.2)) = l2.map (fun p => (lowerStr p.1, p.2)) →
      (l1.map (fun p => lowerStr p.1)).Nodup →
      "content-type" ∉ l1.map (fun p => lowerStr p.1) →
      fingerprintOf ⟨u, m, l1, d⟩ = fingerprintOf ⟨u, m, l2, d⟩) ∧
    (∀ a : HttpArgs,
      fingerprintOf a = "http:" ++ String.mk (toHex (sha256 (utf8L (canonOf a))))) ∧
    (∀ fh : List (String × String), (fh.map (fun p => lowerStr p.1)).Nodup →
      sortedHeaderObj fh = List.insertionSort pairLe (fh.map (fun p => (lowerStr p.1, p.2)))) ∧
    (∀ a1 a2 : HttpArgs, canonOf a1 = canonOf a2 →
      upperMethodOf a1 = upperMethodOf a2 ∧ a1.url = a2.url) ∧
    (∀ (a : HttpArgs) (d : Option Json), upperMethodOf a = "GET" →
      canonOf { a with data := d } = canonOf a ∧
      fingerprintOf { a with data := d } = fingerprintOf a) := by
  refine ⟨?pa, ?pb, ?pc, ?pd, ?pe, ?pf⟩
  case pa =>
    intro u m d l1 l2 hp hn
    exact fingerprint_congr rfl rfl rfl (sortedHeaderObj_perm hp hn)
  case pb =>
    intro u m d l1 l2 hh hn hct
    refine fingerprint_congr rfl rfl rfl ?hs
    have hnames : l2.map (fun p => lowerStr p.1) = l1.map (fun p => lowerStr p.1) := by
      have e1 : ∀ l : List (String × String), l.map (fun p => lowerStr p.1)
          = (l.map (fun p => (lowerStr p.1, p.2))).map Prod.fst := by
        intro l
        rw [List.map_map]
        rfl
      rw [e1 l2, e1 l1, hh]
    have hn2 : (l2.map (fun p => lowerStr p.1)).Nodup := by
      rw [hnames]
      exact hn
    have hct2 : "content-type" ∉ l2.map (fun p => lowerStr p.1) := by
      rw [hnames]
      exact hct
    have hc1 : fetchHeadersOf ⟨u, m, l1, d⟩ = ("Content-Type", "application/json") :: l1 :=
      fetchHeaders_eq_cons _ hn hct
    have hc2 : fetchHeadersOf ⟨u, m, l2, d⟩ = ("Content-Type", "application/json") :: l2 :=
      fetchHeaders_eq_cons _ hn2 hct2
    have hlc : lowerStr "Content-Type" = "content-type" := by decide
    have hnc1 : ((("Content-Type", "application/json") :: l1).map
        (fun p => lowerStr p.1)).Nodup := by
      simp only [List.map_cons, List.nodup_cons, hlc]
      exact ⟨hct, hn⟩
    have hnc2 : ((("Content-Type", "application/json") :: l2).map
        (fun p => lowerStr p.1)).Nodup := by
      simp only [List.map_cons, List.nodup_cons, hlc]
      exact ⟨hct2, hn2⟩
    rw [hc1, hc2, sortedHeaderObj_canonical _ hnc1, sortedHeaderObj_canonical _ hnc2]
    simp only [List.map_cons]
    rw [hh]
  case pc =>
    intro a
    rfl
  case pd =>
    exact fun fh hn => sortedHeaderObj_canonical fh hn
  case pe =>
    exact fun a1 a2 h => canon_peel h
  case pf =>
    intro a d h
    have hb : bodyAllowed (upperMethodOf a) = false := by
      rw [h]
      decide
    have hc := canon_body_irrelevant a d hb
    refine ⟨hc, ?pf2⟩
    case pf2 =>
      unfold fingerprintOf
      rw [hc]

/-- C2 counterexample: two GET requests that differ only in their `data`
field have identical canonical serializations (hence identical
fingerprints), refuting the original claim that changing the body yields a
different canonical string. -/
theorem C2_counterexample :
    (some (Json.jstr "a") : Option Json) ≠ some (Json.jstr "b") ∧
    canonOf { url := "https://e.com", method := "GET", data := some (Json.jstr "a") }
      = canonOf { url := "https://e.com", method := "GET", data := some (Json.jstr "b") } ∧
    fingerprintOf { url := "https://e.com", method := "GET", data := some (Json.jstr "a") }
      = fingerprintOf { url := "https://e.com", method := "GET", data := some (Json.jstr "b") } := by
  have hc : canonOf { url := "https://e.com", method := "GET", data := some (Json.jstr "a") }
      = canonOf { url := "https://e.com", method := "GET", data := some (Json.jstr "b") } := by
    decide
  refine ⟨?ne, hc, ?fp⟩
  case ne =>
    intro h
    simp at h
  case fp =>
    unfold fingerprintOf
    rw [hc]

/-- C2 witness: the casing-invariance conjunct applied to a concrete request
carrying one custom header, in two casings. -/
theorem C2_witness :
    ([("X-Api-Key", "k")] : List (String × String)).map (fun p => (lowerStr p.1, p.2))
        = [("x-api-key", "k")].map (fun p => (lowerStr p.1, p.2)) ∧
    fingerprintOf ⟨"https://e.com", "get", [("X-Api-Key", "k")], none⟩
      = fingerprintOf ⟨"https://e.com", "get", [("x-api-key", "k")], none⟩ :=
  ⟨by decide,
    C2_fingerprint.2.1 "https://e.com" "get" none [("X-Api-Key", "k")] [("x-api-key", "k")]
      (by decide) (by decide) (by decide)⟩


/-- C5: phase isolation in an agent-mode turn.  When the tool-phase HTTP
execution throws, the failure is reported as a failed `step_end` for the
tool step carrying the error message, and the turn is not aborted: the model
phase still begins with its own `step_start`, and a final `done` event ends
the stream — whether the model phase itself succeeds or fails. -/
theorem C5_phase_isolation (mn up : String) (ta : Option HttpArgs) (he : HttpEnv)
    (kv : KVState) (sf : Bool) (t0 : Nat) (msg : String)
    (herr : httpRequest (ta.getD { url := "", method := "" }) he kv = .error msg) :
    (∀ chunks : List String,
      (agentTurn ⟨mn, up, some ⟨"http_request", ta⟩⟩ ⟨he, kv, .success chunks, sf, t0⟩).events
        = SseEvent.stepStart ("http-" ++ toString t0) "http" "HTTP Request"
          :: SseEvent.stepEnd ("http-" ++ toString t0) "failed" (some msg)
          :: SseEvent.stepStart ("llm-" ++ toString t0) "llm" ("Model: " ++ mn)
          :: (chunks.filter (fun c => c ≠ "")).map SseEvent.token
          ++ (match extractActions (String.join (chunks.filter (fun c => c ≠ ""))) with
              | some l => l.map SseEvent.action
              | none => [])
          ++ [SseEvent.stepEnd ("llm-" ++ toString t0) "succeeded" none, SseEvent.done]) ∧
    (∀ (chunks : List String) (m2 : String),
      (agentTurn ⟨mn, up, some ⟨"http_request", ta⟩⟩
          ⟨he, kv, .failure chunks m2, sf, t0⟩).events
        = SseEvent.stepStart ("http-" ++ toString t0) "http" "HTTP Request"
          :: SseEvent.stepEnd ("http-" ++ toString t0) "failed" (some msg)
          :: SseEvent.stepStart ("llm-" ++ toString t0) "llm" ("Model: " ++ mn)
          :: (chunks.filter (fun c => c ≠ "")).map SseEvent.token
          ++ [SseEvent.stepEnd ("llm-" ++ toString t0) "failed" (some m2), SseEvent.done]) := by
  constructor
  · intro chunks
    simp [agentTurn, herr]
  · intro chunks m2
    simp [agentTurn, herr]

/-- C5 witness: a tool request with missing arguments makes `httpRequest`
throw `URL is required`; the turn still runs the model phase and ends with
`done`. -/
theorem C5_witness :
    (agentTurn ⟨"m", "p", some ⟨"http_request", none⟩⟩
        ⟨{ now := 0, net := .error "net down", ttlCfg := none }, [],
          .success [], false, 0⟩).events
      = SseEvent.stepStart ("http-" ++ toString 0) "http" "HTTP Request"
        :: SseEvent.stepEnd ("http-" ++ toString 0) "failed" (some "URL is required")
        :: SseEvent.stepStart ("llm-" ++ toString 0) "llm" ("Model: " ++ "m")
        :: ([] : List String).map SseEvent.token
        ++ (match extractActions (String.join []) with
            | some l => l.map SseEvent.action
            | none => [])
        ++ [SseEvent.stepEnd ("llm-" ++ toString 0) "succeeded" none, SseEvent.done] :=
  (C5_phase_isolation "m" "p" none _ [] false 0 "URL is required" rfl).1 []


/-- C6 (amended): every agent-mode turn hands off exactly one run transcript
to the persistence collaborator, carrying the model id, the literal mode
`agent`, the user prompt and the collected step records; the transcript's
assistant text is the accumulated model text when the model phase succeeds,
but the empty string when it fails (the outer catch passes an empty
`assistantText`, not the text accumulated so far, correcting the original
claim); the persistence outcome influences neither the events nor the saved
transcript, and `done` is emitted in every case. -/
theorem C6_transcript :
    ∀ (cfg : AgentCfg) (he : HttpEnv) (kv : KVState) (lo : LlmOutcome) (sf : Bool) (t0 : Nat),
    ((agentTurn cfg ⟨he, kv, lo, sf, t0⟩).saves.length = 1) ∧
    (∃ t, (agentTurn cfg ⟨he, kv, lo, sf, t0⟩).saves = [t] ∧
      t.model = cfg.modelName ∧ t.mode = "agent" ∧ t.userPrompt = cfg.userPrompt ∧
      (∀ chunks, lo = .success chunks →
        t.assistantText = String.join (chunks.filter (fun c => c ≠ ""))) ∧
      (∀ chunks msg, lo = .failure chunks msg → t.assistantText = "")) ∧
    (∀ s1 s2 : Bool, agentTurn cfg ⟨he, kv, lo, s1, t0⟩ = agentTurn cfg ⟨he, kv, lo, s2, t0⟩) ∧
    (SseEvent.done ∈ (agentTurn cfg ⟨he, kv, lo, sf, t0⟩).events) := by
  intro cfg he kv lo sf t0
  refine ⟨?l1, ?l2, ?l3, ?l4⟩
  case l1 =>
    cases lo <;> rfl
  case l2 =>
    cases lo with
    | success chunks =>
      refine ⟨_, rfl, rfl, rfl, rfl, ?s1, ?s2⟩
      case s1 =>
        intro c hc
        injection hc with h
        subst h
        rfl
      case s2 =>
        intro c m hc
        cases hc
    | failure chunks msg =>
      refine ⟨_, rfl, rfl, rfl, rfl, ?f1, ?f2⟩
      case f1 =>
        intro c hc
        cases hc
      case f2 =>
        intro c m hc
        rfl
  case l3 =>
    intro s1 s2
    rfl
  case l4 =>
    cases lo <;> simp [agentTurn]

/-- C6 counterexample: a turn whose model phase streams the chunk `hello`
and then fails hands off a transcript whose assistant text is the empty
string, not the accumulated text `hello` — refuting the original claim that
the transcript always carries the full accumulated assistant text so far. -/
theorem C6_counterexample :
    (agentTurn ⟨"m", "p", none⟩
        ⟨{ now := 0, net := .error "x", ttlCfg := none }, [],
          .failure ["hello"] "boom", false, 0⟩).events
      = [SseEvent.stepStart "llm-0" "llm" "Model: m", SseEvent.token "hello",
         SseEvent.stepEnd "llm-0" "failed" (some "boom"), SseEvent.done] ∧
    ∃ t, (agentTurn ⟨"m", "p", none⟩
        ⟨{ now := 0, net := .error "x", ttlCfg := none }, [],
          .failure ["hello"] "boom", false, 0⟩).saves = [t] ∧
      t.assistantText = "" ∧ t.assistantText ≠ "hello" := by
  refine ⟨rfl, _, rfl, rfl, ?ne⟩
  case ne =>
    intro h
    simp at h

/-- C6 witness: the transcript conjunct applied to a concrete failing turn. -/
theorem C6_witness :
    ∃ t, (agentTurn ⟨"m", "p", none⟩
        ⟨{ now := 0, net := .error "x", ttlCfg := none }, [],
          .failure ["hello"] "boom", false, 0⟩).saves = [t] ∧ t.assistantText = "" := by
  obtain ⟨_, ⟨t, hs, _, _, _, _, hfail⟩, _, _⟩ :=
    C6_transcript ⟨"m", "p", none⟩ { now := 0, net := .error "x", ttlCfg := none } []
      (.failure ["hello"] "boom") false 0
  exact ⟨t, hs, hfail ["hello"] "boom" rfl⟩


/-- C7: action extraction is total and non-raising.  (a) Text with no
`ACTIONS:` marker and no tag-delimited block yields no actions.  (b) When
the marker is present with a bracketed candidate but the bracketed text does
not parse as a JSON array, no actions result.  (c) In a successful model
turn, exactly one `action` event is emitted per element of the extracted
array (and zero when extraction yields none).  (d) When extraction yields
none, the turn still runs to completion, ending with a succeeded `step_end`
and `done`. -/
theorem C7_action_extraction :
    (∀ text : String, findSubLast text.data actionsMarker = none →
      findSubCI text.data actionsOpenTag = none → extractActions text = none) ∧
    (∀ (text : String) (i : Nat), findSubLast text.data actionsMarker = some i →
      ∀ s e : Nat, findSub (trimL (stripFences (text.data.drop (i + 8)))) ['['] = some s →
        findSubLast (trimL (stripFences (text.data.drop (i + 8)))) [']'] = some e →
        s < e →
        (∀ xs, jsonParse (String.mk (((trimL (stripFences (text.data.drop (i + 8)))).drop s).take
            (e + 1 - s))) ≠ some (.jarr xs)) →
        extractActions text = none) ∧
    (∀ (mn up : String) (he : HttpEnv) (kv : KVState) (sf : Bool) (t0 : Nat)
        (chunks : List String),
      ((agentTurn ⟨mn, up, none⟩ ⟨he, kv, .success chunks, sf, t0⟩).events.filter isActionEv)
        = ((extractActions (String.join (chunks.filter (fun c => c ≠ "")))).getD []).map
            SseEvent.action) ∧
    (∀ (mn up : String) (he : HttpEnv) (kv : KVState) (sf : Bool) (t0 : Nat)
        (chunks : List String),
      extractActions (String.join (chunks.filter (fun c => c ≠ ""))) = none →
      (agentTurn ⟨mn, up, none⟩ ⟨he, kv, .success chunks, sf, t0⟩).events
        = SseEvent.stepStart ("llm-" ++ toString t0) "llm" ("Model: " ++ mn)
          :: (chunks.filter (fun c => c ≠ "")).map SseEvent.token
          ++ [SseEvent.stepEnd ("llm-" ++ toString t0) "succeeded" none, SseEvent.done]) := by
  refine ⟨?pa, ?pb, ?pc, ?pd⟩
  case pa =>
    intro text hm ht
    simp only [extractActions, tagActions, hm, ht]
  case pb =>
    intro text i hm s e hs he hlt hne
    simp only [extractActions, hm, hs, he]
    rw [if_pos hlt]
  case pc =>
    intro mn up he kv sf t0 chunks
    cases hE : extractActions (String.join (chunks.filter (fun c => c ≠ ""))) with
    | none =>
      simp only [agentTurn, hE]
      simp [isActionEv, List.filter_append, List.filter_map, Function.comp]
    | some l =>
      simp only [agentTurn, hE]
      simp [isActionEv, List.filter_append, List.filter_map, Function.comp]
      have hcomp : (isActionEv ∘ SseEvent.action) = fun _ : Json => true := by
        funext x
        rfl
      rw [hcomp]
      simp
  case pd =>
    intro mn up he kv sf t0 chunks hE
    simp only [agentTurn, hE]
    simp

/-- C7 witness: plain text with neither marker nor tags yields no actions. -/
theorem C7_witness :
    findSubLast ("hello world").data actionsMarker = none ∧
    extractActions "hello world" = none :=
  ⟨by decide, C7_action_extraction.1 "hello world" (by decide) (by decide)⟩


/-- C8 (amended): when the tool phase succeeds, the stream carries, in this
order, a `step_start` event for the tool step, then the tool step's
`step_end` event with status succeeded, and only then the one-line `token`
summary of the tool result — the summary follows the `step_end`, not the
other way round as originally claimed. -/
theorem C8_tool_event_order :
    ∀ (mn up : String) (ta : Option HttpArgs) (he : HttpEnv) (kv : KVState)
      (lo : LlmOutcome) (sf : Bool) (t0 : Nat) (out : HttpOutcome),
    httpRequest (ta.getD { url := "", method := "" }) he kv = .ok out →
    ∃ rest, (agentTurn ⟨mn, up, some ⟨"http_request", ta⟩⟩ ⟨he, kv, lo, sf, t0⟩).events
      = SseEvent.stepStart ("http-" ++ toString t0) "http" "HTTP Request"
        :: SseEvent.stepEnd ("http-" ++ toString t0) "succeeded" none
        :: SseEvent.token (toolSummary out.resp)
        :: rest := by
  intro mn up ta he kv lo sf t0 out hok
  cases lo with
  | success chunks =>
    refine ⟨SseEvent.stepStart ("llm-" ++ toString t0) "llm" ("Model: " ++ mn)
        :: (chunks.filter (fun c => c ≠ "")).map SseEvent.token
        ++ (match extractActions (String.join (chunks.filter (fun c => c ≠ ""))) with
            | some l => l.map SseEvent.action
            | none => [])
        ++ [SseEvent.stepEnd ("llm-" ++ toString t0) "succeeded" none, SseEvent.done], ?e1⟩
    case e1 =>
      simp [agentTurn, hok]
  | failure chunks m2 =>
    refine ⟨SseEvent.stepStart ("llm-" ++ toString t0) "llm" ("Model: " ++ mn)
        :: (chunks.filter (fun c => c ≠ "")).map SseEvent.token
        ++ [SseEvent.stepEnd ("llm-" ++ toString t0) "failed" (some m2), SseEvent.done], ?e2⟩
    case e2 =>
      simp [agentTurn, hok]

/-- C8 counterexample: in a concrete successful tool turn the second stream
event is the tool `step_end` and the `token` summary comes third, so the
stream does not carry the summary before the `step_end` as originally
claimed. -/
theorem C8_counterexample :
    (agentTurn ⟨"m", "p", some ⟨"http_request",
        some { url := "https://e.com", method := "GET", headers := [("Authorization", "t")] }⟩⟩
      ⟨{ now := 0, net := .ok ({ status := 200, statusText := "OK", headers := [], bodyText := "hi", finalUrl := "https://e.com", elapsedMs := 5 } : NetResp), ttlCfg := none },
        [], .success [], false, 0⟩).events.take 3
      = [SseEvent.stepStart "http-0" "http" "HTTP Request",
         SseEvent.stepEnd "http-0" "succeeded" none,
         SseEvent.token "HTTP 200 in 5ms"] ∧
    ¬ ∃ rest, (agentTurn ⟨"m", "p", some ⟨"http_request",
        some { url := "https://e.com", method := "GET", headers := [("Authorization", "t")] }⟩⟩
      ⟨{ now := 0, net := .ok ({ status := 200, statusText := "OK", headers := [], bodyText := "hi", finalUrl := "https://e.com", elapsedMs := 5 } : NetResp), ttlCfg := none },
        [], .success [], false, 0⟩).events
      = SseEvent.stepStart "http-0" "http" "HTTP Request"
        :: SseEvent.token "HTTP 200 in 5ms" :: rest := by
  constructor
  · rfl
  · intro hclaim
    obtain ⟨rest, h⟩ := hclaim
    rw [show (agentTurn ⟨"m", "p", some ⟨"http_request",
        some { url := "https://e.com", method := "GET", headers := [("Authorization", "t")] }⟩⟩
      ⟨{ now := 0, net := .ok ({ status := 200, statusText := "OK", headers := [], bodyText := "hi", finalUrl := "https://e.com", elapsedMs := 5 } : NetResp), ttlCfg := none },
        [], .success [], false, 0⟩).events
      = [SseEvent.stepStart "http-0" "http" "HTTP Request",
         SseEvent.stepEnd "http-0" "succeeded" none,
         SseEvent.token "HTTP 200 in 5ms",
         SseEvent.stepStart "llm-0" "llm" "Model: m",
         SseEvent.stepEnd "llm-0" "succeeded" none, SseEvent.done] from rfl] at h
    simp at h


/-- C8 witness: the amended ordering applied to a concrete successful tool
turn. -/
theorem C8_witness :
    ∃ rest, (agentTurn ⟨"m", "p", some ⟨"http_request", some { url := "https://e.com", method := "GET", headers := [("Authorization", "t")] }⟩⟩ ⟨{ now := 0, net := .ok ({ status := 200, statusText := "OK", headers := [], bodyText := "hi", finalUrl := "https://e.com", elapsedMs := 5 } : NetResp), ttlCfg := none }, [], .success [], false, 0⟩).events
      = SseEvent.stepStart ("http-" ++ toString 0) "http" "HTTP Request"
        :: SseEvent.stepEnd ("http-" ++ toString 0) "succeeded" none
        :: SseEvent.token (toolSummary { status := 200, statusText := "OK", headers := [], data := Json.jstr "hi", responseTime := 5, url := "https://e.com", fromCache := false })
        :: rest :=
  C8_tool_event_order "m" "p"
    (some { url := "https://e.com", method := "GET", headers := [("Authorization", "t")] })
    { now := 0, net := .ok ({ status := 200, statusText := "OK", headers := [], bodyText := "hi", finalUrl := "https://e.com", elapsedMs := 5 } : NetResp), ttlCfg := none }
    [] (.success []) false 0
    { resp := { status := 200, statusText := "OK", headers := [], data := Json.jstr "hi", responseTime := 5, url := "https://e.com", fromCache := false },
      kv := [], netCalls := 1,
      sent := [buildInit { url := "https://e.com", method := "GET", headers := [("Authorization", "t")] }],
      cacheReads := [], cacheWrites := [] }
    rfl


/-- C1 witness: a concrete POST is not cacheable, and its execution is a
pure network pass-through that leaves the cache untouched. -/
theorem C1_witness :
    canCacheOf { url := "https://e.com", method := "post" } = false ∧
    httpRequest { url := "https://e.com", method := "post" } { now := 0, net := .ok ({ status := 200, statusText := "OK", headers := [], bodyText := "hi", finalUrl := "https://e.com", elapsedMs := 5 } : NetResp), ttlCfg := none } []
      = .ok { resp := respFromNet ({ status := 200, statusText := "OK", headers := [], bodyText := "hi", finalUrl := "https://e.com", elapsedMs := 5 } : NetResp),
              kv := [], netCalls := 1,
              sent := [buildInit { url := "https://e.com", method := "post" }],
              cacheReads := [], cacheWrites := [] } :=
  ⟨C1_cache_exclusion.2.1 { url := "https://e.com", method := "post" } (Or.inl (by decide)),
   C1_cache_exclusion.2.2.1 { url := "https://e.com", method := "post" } _ [] _
     (by decide) (by decide) rfl (by decide)⟩

/-- C9 witness: a POST with string data sends it verbatim; a GET with the
same data sends no body. -/
theorem C9_witness :
    initBodyOf { url := "u", method := "post", data := some (.jstr "hello") } = some "hello" ∧
    initBodyOf { url := "u", method := "get", data := some (.jstr "x") } = none :=
  ⟨C9_body_transmission.2.2.1 { url := "u", method := "post", data := some (.jstr "hello") }
      "hello" (by decide) rfl,
   C9_body_transmission.2.2.2.2 { url := "u", method := "get", data := some (.jstr "x") }
      (by decide)⟩

/-- C4 witness: an entry with a 2-second TTL is gone 3 seconds later, and a
`get` on an empty store misses. -/
theorem C4_witness :
    (memGet 3000 (memSet 0 [] "k" "v" (some 2)) "k").1 = none ∧
    memGet 7 [] "k" = (none, []) :=
  ⟨C4_memory_kv_ttl.2.2.1 [] "k" "v" 2 0 3000 (by decide) (by decide),
   C4_memory_kv_ttl.1 7 [] "k" rfl⟩

/-- C3 witness: the miss-then-hit round trip at a concrete cacheable GET. -/
theorem C3_witness :
    ∃ out1 out2,
      httpRequest { url := "https://e.com", method := "GET" } { now := 0, net := .ok ({ status := 200, statusText := "OK", headers := [], bodyText := "hi", finalUrl := "https://e.com", elapsedMs := 5 } : NetResp), ttlCfg := none } [] = .ok out1 ∧
      httpRequest { url := "https://e.com", method := "GET" } { now := 1000, net := .error "down", ttlCfg := none } out1.kv = .ok out2 ∧
      out1.netCalls = 1 ∧ out1.resp.fromCache = false ∧
      out2.netCalls = 0 ∧ out2.sent = [] ∧
      out2.resp = { out1.resp with fromCache := true } :=
  C3_cache_roundtrip.1 { url := "https://e.com", method := "GET" } _ _ [] _
    (by decide) (by decide) (by decide) rfl rfl (by decide)

end ApiTester
